import Mathlib

/-!
Verification of the react-model form-state library.

The development shallowly embeds the library's core (the `Model` class of
src/Model.ts, the `ObjectUtils` path accessor, and the storage-adapter
contract) into Lean and proves or refutes the frozen claims about it.

JavaScript values are modelled by the inductive type `Val`: the primitives
compared by value under strict equality, plus plain objects as
insertion-ordered association lists.  Reference identity of objects is not
representable in a pure value type; where the source relies on it
(`insert`'s in-place mutation of shared nested objects) a separate explicit
heap model (`Heap`, `HVal`) is used.  DOM element instances are outside the
modelled value universe, so the source's `isEventInput` test (which requires
`input.target instanceof Element`) is false on every modelled input.
-/

/-- A JavaScript value: primitives plus plain objects
(insertion-ordered string-keyed association lists). -/
inductive Val : Type where
  | undef : Val
  | null : Val
  | bool : Bool → Val
  | num : Int → Val
  | str : String → Val
  | obj : List (String × Val) → Val
deriving Repr

/-- JavaScript `key.split(".")` (single-character separator), written by
structural recursion so that concrete instances evaluate definitionally:
`"" ↦ [""]`, `"a.b" ↦ ["a","b"]`, `"a." ↦ ["a",""]`. -/
def splitOnDot (s : String) : List String :=
  go s.data []
where
  go : List Char → List Char → List String
    | [], acc => [String.mk acc.reverse]
    | c :: cs, acc =>
        if c = '.' then String.mk acc.reverse :: go cs []
        else go cs (c :: acc)

/-- JavaScript `s.indexOf(pre) === 0`, by structural recursion. -/
def strStartsWith (s pre : String) : Bool :=
  go s.data pre.data
where
  go : List Char → List Char → Bool
    | _, [] => true
    | [], _ :: _ => false
    | c :: cs, p :: ps => c == p && go cs ps

namespace ObjectUtils

/-- `isObject` from src/util/ObjectUtils.ts:
`typeof value === "object" && value !== null`.  Plain objects qualify;
`null` and all primitives do not (`Val` holds no functions or arrays). -/
def isObject : Val → Bool
  | .obj _ => true
  | _ => false

/-- JavaScript property read `o[k]` on a plain object: first entry with the
key, `undefined` when absent. -/
def getKey : List (String × Val) → String → Val
  | [], _ => .undef
  | (k', v') :: es, k => if k' = k then v' else getKey es k

/-- JavaScript property write `o[k] = v` on a plain object: an existing key
is updated in place (keeping its position), a new key is appended. -/
def setKey : List (String × Val) → String → Val → List (String × Val)
  | [], k, v => [(k, v)]
  | (k', v') :: es, k, v =>
      if k' = k then (k, v) :: es else (k', v') :: setKey es k v

/-- The descent loop of `retrieve`: `for (const k of path) { if
(!isObject(result)) break; result = result[k] }; return result`.  Note that
when a non-object is reached the loop breaks and that value itself is
returned. -/
def retrieveSegs : Val → List String → Val
  | result, [] => result
  | .obj es, k :: ks => retrieveSegs (getKey es k) ks
  | result, _ :: _ => result

/-- `retrieve(obj, key)` from src/util/ObjectUtils.ts. -/
def retrieve (tree : Val) (key : String) : Val :=
  if key.length = 0 then tree
  else retrieveSegs tree (splitOnDot key)

/-- The segment loop of `insert`, at the level of the observable resulting
value (the heap model below captures the in-place aspect).  At the last
segment `current[k] = value`; otherwise a non-object `current[k]` is
replaced by a fresh empty object before descending. -/
def insertSegs : List (String × Val) → List String → Val → List (String × Val)
  | es, [], _ => es
  | es, [k], v => setKey es k v
  | es, k :: k2 :: ks, v =>
      let child' : List (String × Val) :=
        match getKey es k with
        | .obj ces => ces
        | _ => []
      setKey es k (.obj (insertSegs child' (k2 :: ks) v))

/-- `insert(obj, key, value)` from src/util/ObjectUtils.ts, as the
observable resulting value on the top-level entry list (`{...obj}` followed
by the segment loop). -/
def insertEntries (es : List (String × Val)) (key : String) (v : Val) :
    List (String × Val) :=
  if key.length = 0 then es
  else insertSegs es (splitOnDot key) v

end ObjectUtils

/-- A heap-level JavaScript value: primitives, or a reference to a
heap-allocated object.  Used to model the aliasing behaviour of `insert`,
which the pure `Val` type cannot express. -/
inductive HVal : Type where
  | undef : HVal
  | null : HVal
  | bool : Bool → HVal
  | num : Int → HVal
  | str : String → HVal
  | ref : Nat → HVal
deriving Repr, DecidableEq

/-- Property read on a heap object's entry list. -/
def getKeyH : List (String × HVal) → String → HVal
  | [], _ => .undef
  | (k', v') :: es, k => if k' = k then v' else getKeyH es k

/-- Property write on a heap object's entry list. -/
def setKeyH : List (String × HVal) → String → HVal → List (String × HVal)
  | [], k, v => [(k, v)]
  | (k', v') :: es, k, v =>
      if k' = k then (k, v) :: es else (k', v') :: setKeyH es k v

/-- A heap: allocated objects by address, plus the next fresh address. -/
structure Heap : Type where
  objs : List (Nat × List (String × HVal))
  next : Nat
deriving Repr, DecidableEq

def Heap.lookup (h : Heap) (a : Nat) : Option (List (String × HVal)) :=
  (h.objs.find? (fun e => e.1 == a)).map Prod.snd

def Heap.alloc (h : Heap) (fields : List (String × HVal)) : Heap × Nat :=
  ({ objs := h.objs ++ [(h.next, fields)], next := h.next + 1 }, h.next)

def updateAddr : List (Nat × List (String × HVal)) → Nat →
    List (String × HVal) → List (Nat × List (String × HVal))
  | [], _, _ => []
  | (a', es') :: rest, a, es =>
      if a' = a then (a, es) :: rest else (a', es') :: updateAddr rest a es

def Heap.setObj (h : Heap) (a : Nat) (fields : List (String × HVal)) : Heap :=
  { h with objs := updateAddr h.objs a fields }

/-- Heap-level property read `current[k]`. -/
def Heap.getField (h : Heap) (a : Nat) (k : String) : HVal :=
  getKeyH ((h.lookup a).getD []) k

/-- Heap-level property write `current[k] = v` (in place). -/
def Heap.setField (h : Heap) (a : Nat) (k : String) (v : HVal) : Heap :=
  h.setObj a (setKeyH ((h.lookup a).getD []) k v)

/-- `typeof x === "object" && x !== null` at the heap level: true exactly
for references to allocated objects. -/
def Heap.isObjectH (h : Heap) : HVal → Bool
  | .ref a => (h.lookup a).isSome
  | _ => false

/-- The segment loop of `insert` (src/util/ObjectUtils.ts) over the heap:
at the last segment `current[k] = value`; otherwise, when `current[k]` is
not an object it is replaced by a fresh empty object, and the loop descends
into `current[k]` — which on pre-existing objects is shared with the input
tree. -/
def insertLoop (h : Heap) (cur : Nat) (segs : List String) (v : HVal) : Heap :=
  match segs with
  | [] => h
  | [k] => h.setField cur k v
  | k :: k2 :: ks =>
      match h.getField cur k with
      | .ref a =>
          if (h.lookup a).isSome then
            insertLoop h a (k2 :: ks) v
          else
            let p := h.alloc []
            insertLoop ((p.1.setField cur k (.ref p.2))) p.2 (k2 :: ks) v
      | _ =>
          let p := h.alloc []
          insertLoop ((p.1.setField cur k (.ref p.2))) p.2 (k2 :: ks) v

/-- `insert(obj, key, value)` from src/util/ObjectUtils.ts over the heap:
`const result = {...obj}` is a fresh shallow copy; empty key returns it
unchanged; otherwise the segment loop runs from the copy.  Returns the
updated heap and the address of the result object. -/
def insertH (h : Heap) (root : Nat) (key : String) (v : HVal) : Heap × Nat :=
  let p := h.alloc ((h.lookup root).getD [])
  if key.length = 0 then p
  else (insertLoop p.1 p.2 (splitOnDot key) v, p.2)

/-- JavaScript strict equality (`===`) on modelled values.  Primitives
compare by value, exactly as in JavaScript.  Two object values are `===`
only when they are the same reference; distinct evaluations in this pure
model are distinct references, so the object case is `false` (the claims do
not compare aliased object values). -/
def strictEq : Val → Val → Bool
  | .undef, .undef => true
  | .null, .null => true
  | .bool a, .bool b => a == b
  | .num a, .num b => a == b
  | .str a, .str b => a == b
  | _, _ => false

/-- JavaScript `typeof`. -/
def jsTypeof : Val → String
  | .undef => "undefined"
  | .null => "object"
  | .bool _ => "boolean"
  | .num _ => "number"
  | .str _ => "string"
  | .obj _ => "object"

/-- JavaScript truthiness of a modelled value. -/
def vTruthy : Val → Bool
  | .undef => false
  | .null => false
  | .bool b => b
  | .num n => n != 0
  | .str s => s != ""
  | .obj _ => true

/-- Property lookup in an insertion-ordered record. -/
def lookupA {α : Type} : List (String × α) → String → Option α
  | [], _ => none
  | (k', v') :: es, k => if k' = k then some v' else lookupA es k

/-- Property write in an insertion-ordered record: an existing key is
updated in place, a new key is appended. -/
def setA {α : Type} : List (String × α) → String → α → List (String × α)
  | [], k, v => [(k, v)]
  | (k', v') :: es, k, v =>
      if k' = k then (k, v) :: es else (k', v') :: setA es k v

/-- `ModelErrors`: an insertion-ordered record of field name to
`ModelValidationError` (a string or undefined). -/
abbrev Errors := List (String × Option String)

/-- Truthiness of a `ModelValidationError` (`if (error)`): a non-empty
string. -/
def errTruthy : Option String → Bool
  | some s => s != ""
  | none => false

/-- JavaScript object spread merges: the write-back of
`{...errors, ...validateOptionErrors}`. -/
def objAssign (a b : Errors) : Errors :=
  b.foldl (fun acc e => setA acc e.1 e.2) a

/-- A schema tree value: plain data, a `parse` function, a `validate`
function, or an object node.  JavaScript objects inside the schema are
always encoded as `node`; `prim` holds the non-object, non-function
values. -/
inductive SVal : Type where
  | prim : Val → SVal
  | pfn : (Val → Val → String → Val) → SVal
  | vfn : (Val → Val → Option String) → SVal
  | node : List (String × SVal) → SVal

/-- `typeof x === "object" && x !== null` on schema values: only object
nodes (functions have `typeof "function"`). -/
def sIsObject : SVal → Bool
  | .node _ => true
  | _ => false

/-- JavaScript truthiness of a schema value (objects and functions are
truthy). -/
def sTruthy : SVal → Bool
  | .prim v => vTruthy v
  | .pfn _ => true
  | .vfn _ => true
  | .node _ => true

/-- Schema property read with `undefined` default. -/
def sGetKey (es : List (String × SVal)) (k : String) : SVal :=
  match lookupA es k with
  | some v => v
  | none => (.prim .undef)

/-- The descent loop of `retrieve`, applied to the schema tree (the source
uses the one generic `retrieve` for both). -/
def sretrieveSegs : SVal → List String → SVal
  | result, [] => result
  | .node es, k :: ks => sretrieveSegs (sGetKey es k) ks
  | result, _ :: _ => result

/-- `retrieve(this._schema, name)`. -/
def sretrieve (s : SVal) (key : String) : SVal :=
  if key.length = 0 then s
  else sretrieveSegs s (splitOnDot key)

/-- The fixed recognized key set of a leaf field schema
(`ValidSchemaFieldKeys`). -/
def validSchemaFieldKey (k : String) : Bool :=
  k == "error" || k == "parse" || k == "value" || k == "validate"

/-- `isSchemaFieldObject`: an object all of whose own keys are recognized
field-schema keys.  Note that the empty object `{}` qualifies (`every` over
no keys is true). -/
def isSchemaFieldObject : SVal → Bool
  | .node es => es.all (fun e => validSchemaFieldKey e.1)
  | _ => false

mutual
/-- Conversion of a function-free schema subtree to a plain value, as used
when a leaf's `value` entry is destructured out into the field record.
Function values never occur as field values in the verified claims. -/
def SVal.toVal : SVal → Val
  | .prim v => v
  | .pfn _ => .undef
  | .vfn _ => .undef
  | .node es => .obj (svalEntriesToVal es)
def svalEntriesToVal : List (String × SVal) → List (String × Val)
  | [] => []
  | (k, s) :: rest => (k, s.toVal) :: svalEntriesToVal rest
end

/-- The schema's optional `error` entry (`ModelValidationError`: a string
or undefined). -/
def svalToError : SVal → Option String
  | .prim (.str s) => some s
  | _ => none

/-- A runtime field record (`ModelField`).  The source record also carries
the bound closures `reset`, `setValue` and `validate`; they hold no state
and are omitted here. -/
structure ModelField : Type where
  name : String
  value : Val
  initialValue : Val
  error : Option String
  dirty : Bool
  touched : Bool
deriving Repr

/-- The private per-name utility map entry (the non-value/non-error part of
the leaf schema). -/
structure FieldUtil : Type where
  parse : Option (Val → Val → String → Val)
  validate : Option (Val → Val → Option String)

/-- The transient state memory `_mem`, cleared on every value change.  The
source's absent/undefined `submitted` key and an explicit `false` are both
falsy and are modelled as `false`. -/
structure Mem : Type where
  errors : Option Errors
  submitted : Bool
  values : Option Val

def Mem.empty : Mem := ⟨none, false, none⟩

/-- The model options that carry behaviour: the initial auxiliary state bag
and the model-level validate callback (the default `noop` returns
undefined, whose spread contributes nothing, modelled as `[]`). -/
structure Opts : Type where
  initialState : Val
  validate : Val → Errors → Errors

def Opts.defaults : Opts := ⟨.obj [], fun _ _ => []⟩

/-- The externally observable actions of a model operation, in order:
subscriber notification, the option callbacks, persistence-adapter calls,
the caller-supplied submission callbacks, per-field validator invocations,
and the empty-name console warning. -/
inductive Evt : Type where
  | notify : Evt
  | onChange : Evt
  | onReset : Evt
  | onSubmit : Evt
  | storageSave : Evt
  | storageClear : Evt
  | submitCb : Evt
  | errorCb : Evt
  | validatorCall : String → Evt
  | warn : Evt
deriving Repr, DecidableEq

/-- Exceptions thrown by the model: the MissingField error of `getField`,
and the TypeError of reading a property of undefined. -/
inductive JsErr : Type where
  | missingField : String → JsErr
  | typeError : JsErr
deriving Repr, DecidableEq

/-- The model state: field registry, utility map, transient memory, the
auxiliary state bag, the submitting flag, plus the construction-time schema
and options, and the persistence adapter's snapshot (`stor` is what
`load()` returns; `save` replaces it with a serialization of the registry;
`clear` empties it — the adapter contract of section 6 of the spec,
realized by the WebStorage reference adapter). -/
structure Model : Type where
  fields : List (String × ModelField)
  utils : List (String × FieldUtil)
  mem : Mem
  state : Val
  submitting : Bool
  schema : SVal
  opts : Opts
  stor : Val

/-- JSON-style serialization of one field record as persisted by
`storage.save(this._fields)`: functions and undefined-valued properties are
dropped, in the record's own property order. -/
def serializeField (f : ModelField) : Val :=
  .obj ((match f.error with | some e => [("error", Val.str e)] | none => []) ++
    [("name", Val.str f.name)] ++
    (if strictEq f.value .undef then [] else [("value", f.value)]) ++
    [("dirty", Val.bool f.dirty)] ++
    (if strictEq f.initialValue .undef then []
     else [("initialValue", f.initialValue)]) ++
    [("touched", Val.bool f.touched)])

def serializeFields (fields : List (String × ModelField)) : Val :=
  .obj (fields.map (fun e => (e.1, serializeField e.2)))

/-- `getField(name)`: the registered field, or the thrown MissingField
error. -/
def Model.getField (m : Model) (name : String) : Except JsErr ModelField :=
  match lookupA m.fields name with
  | none => .error (.missingField name)
  | some f => .ok f

/-- The changes record passed to `_updateField`; `none` models an absent
key. -/
structure FieldChanges : Type where
  value : Option Val
  error : Option (Option String)

/-- `_updateField(field, changes)`: merge, force `touched`, and recompute
`dirty = updatedField.initialValue !== changes.value` — reading
`changes.value`, which is undefined when the changes carry only an error,
exactly as in the source. -/
def Model.updateField (m : Model) (field : ModelField) (ch : FieldChanges) :
    Model × ModelField :=
  let updated : ModelField :=
    { field with
      value := ch.value.getD field.value
      error := ch.error.getD field.error
      touched := true
      dirty := !(strictEq field.initialValue (ch.value.getD .undef)) }
  ({ m with fields := setA m.fields field.name updated }, updated)

/-- The accumulation loop of the `values` getter (run from the last
registered field to the first, skipping undefined values). -/
def computeValuesList (pairs : List (String × Val)) : List (String × Val) :=
  pairs.foldl
    (fun acc p =>
      if strictEq p.2 .undef then acc else ObjectUtils.insertEntries acc p.1 p.2)
    []

/-- The `{name, value}` destructurings of the registry's records, in
registry order — exactly what the `values` getter consumes. -/
def namesValues (fields : List (String × ModelField)) : List (String × Val) :=
  fields.map (fun e => (e.2.name, e.2.value))

/-- The values tree the getter computes from the registry on a cache
miss. -/
def Model.valuesFresh (m : Model) : Val :=
  Val.obj (computeValuesList ((namesValues m.fields).reverse))

/-- The `values` getter: memoized path-addressed mirror of all
non-undefined field values. -/
def Model.getValues (m : Model) : Model × Val :=
  match m.mem.values with
  | some v => (m, v)
  | none =>
      let v := m.valuesFresh
      ({ m with mem.values := some v }, v)

/-- `_performFieldValidation(field)`: run the field's validator, if any, on
the current value and the (memoizing) `values`; replace the error and drop
the aggregate error cache only when the result differs from the previous
error.  The optional call `validate?.(value, this.values)` skips its
argument evaluation when there is no validator.  A missing utils entry
would throw in the source; fields and utils are always registered together,
so the defaulted lookup is never exercised on mismatched registries. -/
def Model.performFieldValidation (m : Model) (field : ModelField) :
    Model × List Evt × Option String :=
  match ((lookupA m.utils field.name).getD ⟨none, none⟩).validate with
  | none =>
      if field.error = (none : Option String) then (m, [], none)
      else
        let q := m.updateField field ⟨none, some none⟩
        ({ q.1 with mem.errors := none }, [], none)
  | some vf =>
      let qv := m.getValues
      let error := vf field.value qv.2
      if field.error = error then (qv.1, [Evt.validatorCall field.name], error)
      else
        let q := qv.1.updateField field ⟨none, some error⟩
        ({ q.1 with mem.errors := none }, [Evt.validatorCall field.name], error)

/-- One step of the `getErrors` loop over the registry snapshot. -/
def Model.getErrorsStep (acc : Model × List Evt × Errors) (field : ModelField) :
    Model × List Evt × Errors :=
  let q := acc.1.performFieldValidation field
  let errs := if errTruthy q.2.2 then setA acc.2.2 field.name q.2.2 else acc.2.2
  (q.1, acc.2.1 ++ q.2.1, errs)

/-- `getErrors()`: lazily computed and cached; validates every field,
collects truthy results by name, merges in the model-level
`validate(values, errors)` callback and caches the merge. -/
def Model.getErrors (m : Model) : Model × List Evt × Errors :=
  match m.mem.errors with
  | some errs => (m, [], errs)
  | none =>
      let folded := (m.fields.map Prod.snd).foldl Model.getErrorsStep (m, [], [])
      let qv := folded.1.getValues
      let optErrs := m.opts.validate qv.2 folded.2.2
      let final := objAssign folded.2.2 optErrs
      ({ qv.1 with mem.errors := some final }, folded.2.1, final)

/-- The `validate()` method: `getErrors()` plus one notification exactly
when the error cache was empty before the call. -/
def Model.validateM (m : Model) : Model × List Evt × Errors :=
  let shouldNotify := m.mem.errors.isNone
  let q := m.getErrors
  if shouldNotify then (q.1, q.2.1 ++ [Evt.notify], q.2.2)
  else (q.1, q.2.1, q.2.2)

/-- `hasError()`: whether `getErrors()` has at least one entry. -/
def Model.hasError (m : Model) : Model × List Evt × Bool :=
  let q := m.getErrors
  (q.1, q.2.1, !q.2.2.isEmpty)

/-- `validateField(name)`: validate one field; notify only when the error
changed from the record captured before validation. -/
def Model.validateField (m : Model) (name : String) :
    Except JsErr (Model × List Evt × Option String) :=
  match lookupA m.fields name with
  | none => .error (.missingField name)
  | some field =>
      let q := m.performFieldValidation field
      if field.error = q.2.2 then .ok (q.1, q.2.1, q.2.2)
      else .ok (q.1, q.2.1 ++ [Evt.notify], q.2.2)

/-- `isEventInput`: requires `input.target instanceof Element`.  DOM
element instances lie outside the modelled value universe, so this is false
on every modelled input, exactly as the source's check is on every non-DOM
value. -/
def isEventInput : Val → Bool := fun _ => false

/-- The candidate value of `setFieldValue`: the custom parser's result when
one is configured, else the input verbatim (the event-extraction branch is
guarded by `isEventInput`, which no modelled input satisfies). -/
def candidateValue (u : FieldUtil) (current : Val) (name : String)
    (input : Val) : Val :=
  match u.parse with
  | some p => p input current name
  | none => input

/-- `setFieldValue(name, input, shouldValidate)`: warn-and-ignore on an
empty name; throw MissingField on an unregistered name; compute the
candidate value; do nothing at all when it is strictly equal to the current
value; otherwise clear `_mem`, store the updated field, optionally
validate, persist the registry, and fire `onChange` and the subscriber
notification. -/
def Model.setFieldValue (m : Model) (name : String) (input : Val)
    (shouldValidate : Bool) : Except JsErr (Model × List Evt) :=
  if name = "" then .ok (m, [.warn])
  else
    match lookupA m.fields name with
    | none => .error (.missingField name)
    | some field =>
        let u := (lookupA m.utils name).getD ⟨none, none⟩
        let value := candidateValue u field.value name input
        if strictEq field.value value then .ok (m, [])
        else
          let q := Model.updateField { m with mem := Mem.empty } field
            ⟨some value, none⟩
          let r := if shouldValidate then q.1.performFieldValidation q.2
                   else (q.1, [], none)
          .ok ({ r.1 with stor := serializeFields r.1.fields },
            r.2.1 ++ [Evt.storageSave, Evt.onChange, Evt.notify])

/-- The behaviour of the caller-supplied submit callback: return a plain
value, throw synchronously, or return a pending promise. -/
inductive SubFn : Type where
  | syncVal : Val → SubFn
  | syncThrow : SubFn
  | pending : SubFn
deriving Repr

/-- How a `submit` call (or its resumption) came out. -/
inductive SubmitRes : Type where
  | deduped : SubmitRes
  | errorHandled : SubmitRes
  | completed : Val → SubmitRes
  | threw : SubmitRes
  | suspended : SubmitRes
deriving Repr

/-- The synchronous part of `submit(submitFn, handleError)`: the
`_mem.submitted` de-duplication guard; `_setSubmitting(true)` (which
notifies); speculative locking; full validation; then either `handleError`
on errors, or the submit callback — completing in place when it returns a
plain value or throws, or suspending at the single `await` when it returns
a pending promise (to be finished by `submitResume`).  The try/finally
clears `submitting` (notifying) on every completed path; the catch clears
the lock and rethrows. -/
def Model.submitSync (m : Model) (fn : SubFn) : Model × List Evt × SubmitRes :=
  if m.mem.submitted then (m, [], .deduped)
  else
    let m1 : Model := { m with submitting := true }
    let m2 : Model := { m1 with mem.submitted := true }
    let qv := m2.validateM
    let qh := qv.1.hasError
    if qh.2.2 then
      ({ qh.1 with submitting := false },
        Evt.notify :: (qv.2.1 ++ qh.2.1 ++ [Evt.errorCb, Evt.notify]),
        .errorHandled)
    else
      let qvals := qh.1.getValues
      match fn with
      | .syncThrow =>
          ({ qvals.1 with mem.submitted := false, submitting := false },
            Evt.notify :: (qv.2.1 ++ qh.2.1 ++ [Evt.submitCb, Evt.notify]),
            .threw)
      | .syncVal v =>
          ({ qvals.1 with stor := Val.obj [], submitting := false },
            Evt.notify :: (qv.2.1 ++ qh.2.1 ++
              [Evt.submitCb, Evt.storageClear, Evt.onSubmit, Evt.notify]),
            .completed v)
      | .pending =>
          (qvals.1, Evt.notify :: (qv.2.1 ++ qh.2.1 ++ [Evt.submitCb]),
            .suspended)

/-- The tail of `submit` after the awaited promise settles: on fulfilment,
`storage.clear()` and `onSubmit`, returning the result; on rejection, the
catch unlocks `submitted` and rethrows; either way the finally clears
`submitting` and notifies. -/
def Model.submitResume (m : Model) (settle : Except Unit Val) :
    Model × List Evt × SubmitRes :=
  match settle with
  | .ok v =>
      ({ m with stor := Val.obj [], submitting := false },
        [Evt.storageClear, Evt.onSubmit, Evt.notify], .completed v)
  | .error _ =>
      ({ m with mem.submitted := false, submitting := false },
        [Evt.notify], .threw)

/-- The own entries of a schema value when destructured
(`const {value, error, ...utils} = schema`); destructuring a truthy
primitive yields undefined for every key. -/
def schemaEntries : SVal → List (String × SVal)
  | .node es => es
  | _ => []

/-- The field record `_registerField(name, schema)` stores: fresh
untouched/clean, with `initialValue = value`. -/
def registeredFieldOf (name : String) (schema : SVal) : ModelField :=
  let value := match lookupA (schemaEntries schema) "value" with
    | some s => s.toVal
    | none => .undef
  { name := name, value := value, initialValue := value,
    error := match lookupA (schemaEntries schema) "error" with
      | some s => svalToError s
      | none => none,
    dirty := false, touched := false }

/-- The utils entry `_registerField` stashes (the rest of the
destructuring: `parse` and `validate`). -/
def registeredUtilOf (schema : SVal) : FieldUtil :=
  { parse :=
      match (lookupA (schemaEntries schema) "parse" : Option SVal) with
      | some (SVal.pfn f) => some f
      | _ => none
    validate :=
      match (lookupA (schemaEntries schema) "validate" : Option SVal) with
      | some (SVal.vfn f) => some f
      | _ => none }

/-- `_registerField(name, schema)`: destructure `{value, error, ...utils}`,
record the utils, store the fresh field, and seed the error cache when a
truthy initial error is supplied. -/
def Model.registerField (m : Model) (name : String) (schema : SVal) : Model :=
  let field := registeredFieldOf name schema
  let m1 : Model := { m with utils := setA m.utils name (registeredUtilOf schema),
                             fields := setA m.fields name field }
  if errTruthy field.error then
    { m1 with mem.errors := some (setA (m1.mem.errors.getD []) name field.error) }
  else m1

/-- Dot-joined field names as built by `_initializeFields`. -/
def joinName (pfx k : String) : String :=
  if pfx = "" then k else pfx ++ "." ++ k

mutual
/-- `_initializeFields(name)`: register a node classified as a leaf field
schema, recurse into the keys of a group node; undefined subtrees and
primitives contribute nothing.  Structural on the schema subtree; the
source re-retrieves `retrieve(this._schema, name)` at each call, which for
key names free of "." yields exactly this subtree (the library's
dot-notation addressing presumes dot-free keys). -/
def Model.initFieldsWalk (m : Model) (name : String) : SVal → Model
  | .node es =>
      if isSchemaFieldObject (.node es) then m.registerField name (.node es)
      else Model.initFieldsWalkList m name es
  | _ => m
def Model.initFieldsWalkList (m : Model) (pfx : String) :
    List (String × SVal) → Model
  | [] => m
  | (k, sub) :: rest =>
      Model.initFieldsWalkList (Model.initFieldsWalk m (joinName pfx k) sub) pfx rest
end

/-- `_clearState`: reset utils, transient memory and the auxiliary state
bag. -/
def Model.clearState (m : Model) : Model :=
  { m with utils := [], mem := Mem.empty, state := m.opts.initialState }

/-- The `for...in` body of `_loadStorageValues`.  A non-object entry makes
the whole import `return` (not `continue`).  For an object entry, its
`value` is destructured and `field.value` is read before the `field &&`
guard — a TypeError when the name is not registered. -/
def Model.loadStorageLoop (m : Model) :
    List (String × Val) → Except JsErr Model
  | [] => .ok m
  | (name, curField) :: rest =>
      if ObjectUtils.isObject curField then
        let value := match curField with
          | .obj es => ObjectUtils.getKey es "value"
          | _ => .undef
        match lookupA m.fields name with
        | none => .error .typeError
        | some field =>
            if (jsTypeof value == jsTypeof field.value)
                && !(strictEq value field.value) then
              Model.loadStorageLoop (m.updateField field ⟨some value, none⟩).1 rest
            else Model.loadStorageLoop m rest
      else .ok m

/-- `_loadStorageValues`: import the adapter's snapshot.  `for...in` over a
non-object payload iterates nothing. -/
def Model.loadStorageValues (m : Model) : Except JsErr Model :=
  match m.stor with
  | .obj entries => m.loadStorageLoop entries
  | _ => .ok m

/-- `_setupInitialState`: clear state, register every schema field, then do
the import of the persisted snapshot. -/
def Model.setupInitialState (m : Model) : Except JsErr Model :=
  (Model.initFieldsWalk m.clearState "" m.schema).loadStorageValues

/-- `new Model(schema, options)`, with `stor0` the adapter snapshot that
`load()` would return at construction time. -/
def mkModel (schema : SVal) (opts : Opts) (stor0 : Val) : Except JsErr Model :=
  Model.setupInitialState
    { fields := [], utils := [], mem := Mem.empty, state := Val.obj [],
      submitting := false, schema := schema, opts := opts, stor := stor0 }

/-- `_for(search, cb)`'s matched set: the single exact-name field, or — with
no exact match — every field whose name starts with `search + "."`. -/
def forMatches (fields : List (String × ModelField)) (search : String) :
    List ModelField :=
  match lookupA fields search with
  | some f => [f]
  | none => (fields.map Prod.snd).filter (fun f => strStartsWith f.name (search ++ "."))

/-- The named-reset callback applied to each matched field: re-register
from the schema leaf at its name, skipping names whose schema lookup is
falsy. -/
def Model.resetMatchedLoop (m : Model) : List ModelField → Model
  | [] => m
  | f :: rest =>
      let fieldSchema := sretrieve m.schema f.name
      if sTruthy fieldSchema then
        Model.resetMatchedLoop (m.registerField f.name fieldSchema) rest
      else Model.resetMatchedLoop m rest

/-- `reset(name?)`.  An absent argument and the empty string are both falsy
and take the full-reset branch: `storage.clear()`, `_setupInitialState`,
`onReset`, then (always) clear `_mem` and notify.  A truthy name resolves
the matched set, re-registers each matched field from its schema leaf,
persists the registry, and clears `_mem`/notifies only when at least one
field matched. -/
def Model.reset (m : Model) (name : String) : Except JsErr (Model × List Evt) :=
  if name = "" then
    match Model.setupInitialState { m with stor := Val.obj [] } with
    | .error e => .error e
    | .ok m2 =>
        .ok ({ m2 with mem := Mem.empty },
          [Evt.storageClear, Evt.onReset, Evt.notify])
  else
    let matched := forMatches m.fields name
    let m1 := m.resetMatchedLoop matched
    let m2 : Model := { m1 with stor := serializeFields m1.fields }
    if matched.isEmpty then .ok (m2, [Evt.storageSave])
    else .ok ({ m2 with mem := Mem.empty }, [Evt.storageSave, Evt.notify])

/-- The leaves of a schema subtree, with their dot-joined names, in
registration order (the specification-level mirror of
`Model.initFieldsWalk`, used to state what initialization registers). -/
def leafList : SVal → String → List (String × SVal)
  | .node es, name =>
      if isSchemaFieldObject (.node es) then [(name, .node es)]
      else leafListL es name
  | _, _ => []
where
  leafListL : List (String × SVal) → String → List (String × SVal)
    | [], _ => []
    | (k, sub) :: rest, pfx => leafList sub (joinName pfx k) ++ leafListL rest pfx

mutual
/-- No key anywhere in the schema contains a "." — the well-formedness
presumed by the library's dot-notation addressing, under which the
structural `Model.initFieldsWalk` coincides with the source's
retrieve-based recursion. -/
def schemaNoDots : SVal → Bool
  | .node es => schemaNoDotsL es
  | _ => true
def schemaNoDotsL : List (String × SVal) → Bool
  | [] => true
  | (k, sub) :: rest => !('.' ∈ k.data) && schemaNoDots sub && schemaNoDotsL rest
end

/-- The last binding of a key in an association list (JavaScript records
cannot actually repeat keys; this resolves last-write-wins for arbitrary
encodings). -/
def lastLookup {α : Type} (l : List (String × α)) (k : String) : Option α :=
  lookupA l.reverse k

/-- Registration of a list of (name, leaf) pairs in order — the
specification-level unfolding of `Model.initFieldsWalk`. -/
def regAll (m : Model) (l : List (String × SVal)) : Model :=
  l.foldl (fun acc p => acc.registerField p.1 p.2) m

/-- Occurrences of one event in a log. -/
def countEvt (e : Evt) (l : List Evt) : Nat := l.count e

/-- `getField` applied to the outcome of a model construction
(errors propagate). -/
def getFieldResult (r : Except JsErr Model) (name : String) :
    Except JsErr ModelField :=
  match r with
  | .ok m => m.getField name
  | .error e => .error e

/-- The state/event outcome of a non-throwing `setFieldValue` call with
validation enabled (the default). -/
def sfvStep (m : Model) (name : String) (input : Val) : Model × List Evt :=
  match m.setFieldValue name input true with
  | .ok r => r
  | .error _ => (m, [])

/-- The state/event outcome of a non-throwing `validateField` call. -/
def vfStep (m : Model) (name : String) : Model × List Evt :=
  match m.validateField name with
  | .ok r => (r.1, r.2.1)
  | .error _ => (m, [])

/-- A one-field model (schema `{foo: {value: 0}}`, default options, empty
persisted snapshot), as constructed by `new Model`. -/
def mFoo : Model :=
  { fields := [("foo", { name := "foo", value := .num 0, initialValue := .num 0,
                         error := none, dirty := false, touched := false })],
    utils := [("foo", ⟨none, none⟩)],
    mem := Mem.empty, state := .obj [], submitting := false,
    schema := SVal.node [("foo", SVal.node [("value", SVal.prim (.num 0))])],
    opts := Opts.defaults, stor := .obj [] }

/-- A one-field model whose field `foo` carries the constant validator
`() => "error"` (schema `{foo: {value: 0, validate: () => "error"}}`). -/
def mC7 : Model :=
  { fields := [("foo", { name := "foo", value := .num 0, initialValue := .num 0,
                         error := none, dirty := false, touched := false })],
    utils := [("foo", ⟨none, some (fun _ _ => some "error")⟩)],
    mem := Mem.empty, state := .obj [], submitting := false,
    schema := SVal.node [("foo", SVal.node
      [("value", SVal.prim (.num 0)),
       ("validate", SVal.vfn (fun _ _ => some "error"))])],
    opts := Opts.defaults, stor := .obj [] }

/-- The nested-reset scenario schema
`{foo: {value: "a"}, nested: {bar: {value: "a"}, baz: {value: 0}}}`. -/
def nestedSchema : SVal :=
  SVal.node
    [("foo", SVal.node [("value", SVal.prim (.str "a"))]),
     ("nested", SVal.node
        [("bar", SVal.node [("value", SVal.prim (.str "a"))]),
         ("baz", SVal.node [("value", SVal.prim (.num 0))])])]

/-- Registry coherence: every entry's field record carries the entry's key
as its `name` (registration stores the name it is keyed under, and updates
preserve it). -/
def Coherent (fields : List (String × ModelField)) : Prop :=
  ∀ n f, lookupA fields n = some f → f.name = n

/-- Executable check for `Coherent` on concrete registries. -/
def coherentB (fields : List (String × ModelField)) : Bool :=
  fields.all (fun e => e.2.name == e.1)

/-- The per-entry (key, value) projection of a registry — what the `values`
getter and the claims' frame conditions depend on. -/
def valuesProj (fields : List (String × ModelField)) : List (String × Val) :=
  fields.map (fun e => (e.1, e.2.value))

/-- The value the `values` getter returns (with its memoization step). -/
def Model.valuesNow (m : Model) : Val := (m.getValues).2

/-- The model `new Model` builds from `nestedSchema` with default options
and an empty persisted snapshot. -/
def mNested : Model :=
  { fields :=
      [("foo", ⟨"foo", .str "a", .str "a", none, false, false⟩),
       ("nested.bar", ⟨"nested.bar", .str "a", .str "a", none, false, false⟩),
       ("nested.baz", ⟨"nested.baz", .num 0, .num 0, none, false, false⟩)],
    utils := [("foo", ⟨none, none⟩), ("nested.bar", ⟨none, none⟩),
              ("nested.baz", ⟨none, none⟩)],
    mem := Mem.empty, state := .obj [], submitting := false,
    schema := nestedSchema, opts := Opts.defaults, stor := .obj [] }

/-- `mNested` after changing all three fields (as in the nested-reset
scenario). -/
def mNestedChanged : Model :=
  { mNested with
    fields :=
      [("foo", ⟨"foo", .str "x", .str "a", none, true, true⟩),
       ("nested.bar", ⟨"nested.bar", .str "y", .str "a", none, true, true⟩),
       ("nested.baz", ⟨"nested.baz", .num 5, .num 0, none, true, true⟩)] }

/-- The state/event outcome of a `reset` call (named resets never throw;
the full reset throws only through the storage import, which after
`storage.clear()` sees an empty snapshot). -/
def resetStep (m : Model) (name : String) : Model × List Evt :=
  match m.reset name with
  | .ok r => r
  | .error _ => (m, [])

section ObjectUtilsLemmas

open ObjectUtils

theorem getKey_setKey (es : List (String × Val)) (k : String) (v : Val) :
    getKey (setKey es k v) k = v := by
  induction es with
  | nil => simp [setKey, getKey]
  | cons e es ih =>
      obtain ⟨k', v'⟩ := e
      by_cases h : k' = k
      · simp [setKey, getKey, h]
      · simp [setKey, getKey, h, ih]

theorem getKey_setKey_ne (es : List (String × Val)) (k k2 : String) (v : Val)
    (h : k ≠ k2) : getKey (setKey es k v) k2 = getKey es k2 := by
  induction es with
  | nil => simp [setKey, getKey, h]
  | cons e es ih =>
      obtain ⟨k', v'⟩ := e
      by_cases h' : k' = k
      · subst h'
        simp [setKey, getKey, h]
      · simp [setKey, getKey, h', ih]

theorem retrieveSegs_insertSegs (es : List (String × Val)) (segs : List String)
    (v : Val) (h : segs ≠ []) :
    retrieveSegs (.obj (insertSegs es segs v)) segs = v := by
  induction segs generalizing es with
  | nil => exact absurd rfl h
  | cons k ks ih =>
      cases ks with
      | nil =>
          simp [insertSegs, retrieveSegs, isObject, getKey_setKey]
      | cons k2 ks' =>
          simp only [insertSegs, retrieveSegs, isObject, getKey_setKey]
          exact ih _ (by simp)

theorem splitOnDot_go_ne_nil (cs acc : List Char) : splitOnDot.go cs acc ≠ [] := by
  induction cs generalizing acc with
  | nil => simp [splitOnDot.go]
  | cons c cs ih =>
      simp only [splitOnDot.go]
      split
      · simp
      · exact ih _

theorem splitOnDot_ne_nil (s : String) : splitOnDot s ≠ [] :=
  splitOnDot_go_ne_nil _ _

theorem lookupA_setA_self {α : Type} (es : List (String × α)) (k : String) (v : α) :
    lookupA (setA es k v) k = some v := by
  induction es with
  | nil => simp [setA, lookupA]
  | cons e es ih =>
      obtain ⟨k', v'⟩ := e
      by_cases h : k' = k
      · simp [setA, lookupA, h]
      · simp [setA, lookupA, h, ih]

theorem lookupA_setA_ne {α : Type} (es : List (String × α)) (k k2 : String)
    (v : α) (h : k ≠ k2) : lookupA (setA es k v) k2 = lookupA es k2 := by
  induction es with
  | nil => simp [setA, lookupA, h]
  | cons e es ih =>
      obtain ⟨k', v'⟩ := e
      by_cases h' : k' = k
      · subst h'
        simp [setA, lookupA, h]
      · simp [setA, lookupA, h', ih]

theorem keys_setA {α : Type} (es : List (String × α)) (k : String) (v : α)
    (h : (lookupA es k).isSome) :
    (setA es k v).map Prod.fst = es.map Prod.fst := by
  induction es with
  | nil => simp [lookupA] at h
  | cons e es ih =>
      obtain ⟨k', v'⟩ := e
      by_cases h' : k' = k
      · subst h'
        simp [setA]
      · simp [lookupA, h'] at h
        simp [setA, h', ih h]

theorem lookupA_getKey (es : List (String × Val)) (k : String)
    (h : lookupA es k = none) : ObjectUtils.getKey es k = Val.undef := by
  induction es with
  | nil => simp [ObjectUtils.getKey]
  | cons e es ih =>
      obtain ⟨k', v'⟩ := e
      by_cases h' : k' = k
      · simp [lookupA, h'] at h
      · simp [lookupA, h'] at h
        simp [ObjectUtils.getKey, h', ih h]

theorem findAddr_append_none {α : Type} (p : α → Bool) (l1 l2 : List α)
    (h : l1.find? p = none) : (l1 ++ l2).find? p = l2.find? p := by
  induction l1 with
  | nil => simp
  | cons e l ih =>
      cases hpa : p e
      · rw [List.cons_append]
        simp only [List.find?, hpa] at h ⊢
        exact ih h
      · simp [List.find?, hpa] at h

theorem findAddr_append_single (l : List (Nat × List (String × HVal)))
    (n a : Nat) (fs : List (String × HVal)) (ha : a ≠ n) :
    ((l ++ [(n, fs)]).find? (fun e => e.1 == a))
      = l.find? (fun e => e.1 == a) := by
  induction l with
  | nil =>
      have hna : (n == a) = false := by simp [Ne.symm ha]
      simp [List.find?, hna]
  | cons e l ih =>
      cases hpa : ((fun e => e.1 == a) e)
      · rw [List.cons_append]
        simp only [List.find?, hpa]
        exact ih
      · simp [List.find?, hpa]

theorem Heap.lookup_alloc_ne (h : Heap) (fs : List (String × HVal)) (a : Nat)
    (ha : a ≠ h.next) : (h.alloc fs).1.lookup a = h.lookup a := by
  unfold Heap.alloc Heap.lookup
  simp only
  rw [findAddr_append_single _ _ _ _ ha]

theorem Heap.lookup_alloc_self (h : Heap) (fs : List (String × HVal))
    (hfresh : h.lookup h.next = none) :
    (h.alloc fs).1.lookup h.next = some fs := by
  unfold Heap.lookup at hfresh
  unfold Heap.alloc Heap.lookup
  simp only
  have hnone : h.objs.find? (fun e => e.1 == h.next) = none := by
    cases hfind : h.objs.find? (fun e => e.1 == h.next) with
    | none => rfl
    | some e => rw [hfind] at hfresh; simp at hfresh
  rw [findAddr_append_none _ _ _ hnone]
  simp [List.find?]

theorem findAddr_updateAddr_ne (l : List (Nat × List (String × HVal)))
    (b a : Nat) (fs : List (String × HVal)) (ha : a ≠ b) :
    ((updateAddr l b fs).find? (fun e => e.1 == a))
      = l.find? (fun e => e.1 == a) := by
  induction l with
  | nil => simp [updateAddr]
  | cons e l ih =>
      obtain ⟨a', es'⟩ := e
      by_cases hb : a' = b
      · subst hb
        have h1 : ((a', fs).1 == a) = false := by
          simp [Ne.symm ha]
        have h2 : ((a', es').1 == a) = false := by
          simp [Ne.symm ha]
        simp only [updateAddr, if_pos rfl, List.find?, h1, h2]
      · simp only [updateAddr, if_neg hb]
        cases hpa : ((a', es').1 == a)
        · simp only [List.find?, hpa]
          exact ih
        · simp [List.find?, hpa]

theorem Heap.lookup_setField_ne (h : Heap) (b : Nat) (k : String) (v : HVal)
    (a : Nat) (ha : a ≠ b) : (h.setField b k v).lookup a = h.lookup a := by
  unfold Heap.setField Heap.setObj Heap.lookup
  simp only
  rw [findAddr_updateAddr_ne _ _ _ _ ha]

end ObjectUtilsLemmas

section ClaimC4

/-- C4 (amended): for the empty path `retrieve` returns the tree itself; a
non-empty path is split on "." and descended segment by segment, an object
step reading the segment's key (absent keys yielding undefined); the
descent stops at the first non-mapping intermediate value and returns that
value itself — not undefined — and the function is total (never throws)
and read-only (never creates intermediate nodes). -/
theorem C4_retrieve_descent (t : Val) (key : String)
    (es : List (String × Val)) (k : String) (ks : List String) :
    (ObjectUtils.retrieve t "" = t)
  ∧ (key.length ≠ 0 →
      ObjectUtils.retrieve t key = ObjectUtils.retrieveSegs t (splitOnDot key))
  ∧ (ObjectUtils.isObject t = false → ObjectUtils.retrieveSegs t (k :: ks) = t)
  ∧ (ObjectUtils.retrieveSegs (Val.obj es) (k :: ks)
      = ObjectUtils.retrieveSegs (ObjectUtils.getKey es k) ks)
  ∧ (lookupA es k = none → ObjectUtils.getKey es k = Val.undef) := by
  refine ⟨rfl, ?_, ?_, rfl, lookupA_getKey es k⟩
  · intro h
    simp [ObjectUtils.retrieve, h]
  · intro h
    cases t <;> simp_all [ObjectUtils.retrieveSegs, ObjectUtils.isObject]

theorem C4_retrieve_descent_witness :
    ObjectUtils.retrieve (Val.num 7) "x" = Val.num 7 ∧
    ObjectUtils.getKey [("a", Val.num 1)] "x" = Val.undef := by
  have h := C4_retrieve_descent (Val.num 7) "x" [("a", Val.num 1)] "x" []
  refine ⟨?_, h.2.2.2.2 rfl⟩
  have h1 := h.2.1 (by decide)
  have h2 := h.2.2.1 rfl
  rw [h1]
  exact h2

/-- C4 counterexample: `retrieve({a: 5}, "a.b")` returns `5` — the
non-mapping value at which the descent stopped — not `undefined` as the
claim states. -/
theorem C4_counterexample :
    ObjectUtils.retrieve (Val.obj [("a", Val.num 5)]) "a.b" = Val.num 5 ∧
    ObjectUtils.retrieve (Val.obj [("a", Val.num 5)]) "a.b" ≠ Val.undef := by
  refine ⟨rfl, ?_⟩
  intro h
  rw [show ObjectUtils.retrieve (Val.obj [("a", Val.num 5)]) "a.b" = Val.num 5
    from rfl] at h
  exact Val.noConfusion h

end ClaimC4

section ClaimC5

/-- C5 (amended): `insert` returns a freshly allocated top-level object
(never an address of the input heap, whose own entries are the shallow copy
of the root); for the empty path and for single-segment paths no
pre-existing object is modified; reading the path back from the pure result
value yields the inserted value (intermediate absent or non-mapping
segments are created as empty mappings on the way).  Nested mappings along
multi-segment paths, however, are shared with the input and are mutated in
place (see the counterexample). -/
theorem C5_insert_allocation (h : Heap) (root : Nat) (key k : String)
    (v : HVal) (es : List (String × Val)) (w : Val) :
    ((insertH h root key v).2 = h.next)
  ∧ (key.length = 0 → h.lookup h.next = none →
      (insertH h root key v).1.lookup h.next = some ((h.lookup root).getD []))
  ∧ (key.length = 0 →
      ∀ a, a ≠ h.next → (insertH h root key v).1.lookup a = h.lookup a)
  ∧ (key.length ≠ 0 → splitOnDot key = [k] →
      ∀ a, a ≠ h.next → (insertH h root key v).1.lookup a = h.lookup a)
  ∧ (key.length ≠ 0 →
      ObjectUtils.retrieve (.obj (ObjectUtils.insertEntries es key w)) key = w) := by
  refine ⟨?_, ?_, ?_, ?_, ?_⟩
  · unfold insertH
    split <;> rfl
  · intro hk hfresh
    unfold insertH
    rw [if_pos hk]
    exact Heap.lookup_alloc_self h _ hfresh
  · intro hk a ha
    unfold insertH
    rw [if_pos hk]
    exact Heap.lookup_alloc_ne h _ a ha
  · intro hk hsplit a ha
    unfold insertH
    rw [if_neg hk, hsplit]
    show ((h.alloc ((h.lookup root).getD [])).1.setField h.next k v).lookup a
      = h.lookup a
    rw [Heap.lookup_setField_ne _ _ _ _ a ha]
    exact Heap.lookup_alloc_ne h _ a ha
  · intro hk
    have hs := splitOnDot_ne_nil key
    unfold ObjectUtils.retrieve ObjectUtils.insertEntries
    rw [if_neg hk, if_neg hk]
    exact retrieveSegs_insertSegs es (splitOnDot key) w hs

theorem C5_insert_allocation_witness :
    (insertH ⟨[(0, [("q", HVal.num 3)])], 1⟩ 0 "q" (HVal.num 9)).2 = 1 ∧
    (insertH ⟨[(0, [("q", HVal.num 3)])], 1⟩ 0 "q" (HVal.num 9)).1.lookup 0
      = Heap.lookup ⟨[(0, [("q", HVal.num 3)])], 1⟩ 0 ∧
    ObjectUtils.retrieve
      (.obj (ObjectUtils.insertEntries [("p", Val.num 1)] "q" (Val.num 4))) "q"
      = Val.num 4 := by
  have h := C5_insert_allocation ⟨[(0, [("q", HVal.num 3)])], 1⟩ 0 "q" "q"
    (HVal.num 9) [("p", Val.num 1)] (Val.num 4)
  exact ⟨h.1, h.2.2.2.1 (by decide) rfl 0 (by decide), h.2.2.2.2 (by decide)⟩

/-- C5 counterexample: on the heap `{0 ↦ {a: ref 1}, 1 ↦ {b: 1}}` (the
nested object `1` is reachable from the input root `0` through key "a"),
`insert(root, "a.c", 2)` mutates object `1` in place, so the input tree is
modified — refuting "no node reachable from the input tree is modified,
including nested mappings along multi-segment paths". -/
theorem C5_counterexample :
    Heap.getField ⟨[(0, [("a", HVal.ref 1)]), (1, [("b", HVal.num 1)])], 2⟩ 0 "a"
      = HVal.ref 1 ∧
    Heap.lookup ⟨[(0, [("a", HVal.ref 1)]), (1, [("b", HVal.num 1)])], 2⟩ 1
      = some [("b", HVal.num 1)] ∧
    (insertH ⟨[(0, [("a", HVal.ref 1)]), (1, [("b", HVal.num 1)])], 2⟩ 0 "a.c"
        (HVal.num 2)).1.lookup 1
      = some [("b", HVal.num 1), ("c", HVal.num 2)] ∧
    (insertH ⟨[(0, [("a", HVal.ref 1)]), (1, [("b", HVal.num 1)])], 2⟩ 0 "a.c"
        (HVal.num 2)).1.lookup 1
      ≠ Heap.lookup ⟨[(0, [("a", HVal.ref 1)]), (1, [("b", HVal.num 1)])], 2⟩ 1 := by
  refine ⟨rfl, rfl, rfl, ?_⟩
  decide

end ClaimC5

section ModelLemmas

theorem coherent_of_coherentB (fields : List (String × ModelField))
    (h : coherentB fields = true) : Coherent fields := by
  induction fields with
  | nil => intro n f hf; simp [lookupA] at hf
  | cons e es ih =>
      simp only [coherentB, List.all_cons, Bool.and_eq_true, beq_iff_eq] at h
      intro n f hf
      obtain ⟨k', f'⟩ := e
      by_cases hk : k' = n
      · simp [lookupA, hk] at hf
        rw [← hf]
        rw [← hk]
        exact h.1
      · simp [lookupA, hk] at hf
        exact ih (by simpa [coherentB] using h.2) n f hf

theorem coherent_updateField (m : Model) (field : ModelField)
    (ch : FieldChanges) (hcoh : Coherent m.fields) :
    Coherent (m.updateField field ch).1.fields := by
  intro n f hf
  unfold Model.updateField at hf
  simp only at hf
  by_cases hn : field.name = n
  · rw [hn] at hf
    rw [lookupA_setA_self] at hf
    cases hf
    rfl
  · rw [lookupA_setA_ne _ _ _ _ hn] at hf
    exact hcoh n f hf

theorem lookupA_updateField_ne (m : Model) (field : ModelField)
    (ch : FieldChanges) (n : String) (hn : field.name ≠ n) :
    lookupA (m.updateField field ch).1.fields n = lookupA m.fields n := by
  unfold Model.updateField
  simp only
  exact lookupA_setA_ne _ _ _ _ hn

end ModelLemmas

section ClaimC6

/-- C6 (amended): `getField` returns the registered field when the name is
registered and throws the MissingField error otherwise; the empty string
throws for models whose schema the key-based classifier treats as a group
(for example `{foo: {value: "test"}}`), but a model constructed from the
empty schema `{}` — which the classifier treats as a leaf, `every` over no
keys being true — registers a root field under the empty name, and
`getField("")` returns that field rather than throwing. -/
theorem C6_getField (m : Model) (name : String) (f : ModelField) :
    (lookupA m.fields name = some f → m.getField name = .ok f)
  ∧ (lookupA m.fields name = none →
      m.getField name = .error (.missingField name))
  ∧ (getFieldResult (mkModel (SVal.node [("foo", SVal.node
        [("value", SVal.prim (.str "test"))])]) Opts.defaults (Val.obj [])) ""
      = .error (.missingField ""))
  ∧ (getFieldResult (mkModel (SVal.node []) Opts.defaults (Val.obj [])) ""
      = .ok { name := "", value := .undef, initialValue := .undef,
              error := none, dirty := false, touched := false }) := by
  refine ⟨?_, ?_, rfl, rfl⟩
  · intro h
    simp [Model.getField, h]
  · intro h
    simp [Model.getField, h]

theorem C6_getField_witness :
    Model.getField mFoo "foo"
      = .ok ⟨"foo", .num 0, .num 0, none, false, false⟩ ∧
    Model.getField mFoo "bar" = .error (.missingField "bar") := by
  have h1 := C6_getField mFoo "foo" ⟨"foo", .num 0, .num 0, none, false, false⟩
  have h2 := C6_getField mFoo "bar" ⟨"foo", .num 0, .num 0, none, false, false⟩
  exact ⟨h1.1 rfl, h2.2.1 rfl⟩

/-- C6 counterexample: for a model constructed from the empty schema `{}`,
`getField("")` does not throw — it returns the field registered under the
empty name (the whole schema is classified as a leaf field object, since
`every` over the empty key set is true) — refuting "calling getField with
the empty string always throws, for every model, including a model
constructed from the empty schema". -/
theorem C6_counterexample :
    getFieldResult (mkModel (SVal.node []) Opts.defaults (Val.obj [])) ""
      = .ok { name := "", value := .undef, initialValue := .undef,
              error := none, dirty := false, touched := false } := rfl

end ClaimC6

section ClaimC10

/-- C10 (amended): if the loaded snapshot is a mapping all of whose entries
hold object values, and some key is not a registered field name, then the
the import throws the TypeError — `field.value` is read before the `field &&`
existence guard.  The claim as frozen omits the proviso on the earlier
entries: an entry with a non-object value placed before the unknown key
makes the whole import return early without throwing (see
counterexample). -/
theorem C10_loadStorage (entries : List (String × Val)) (m : Model)
    (hstor : m.stor = Val.obj entries)
    (hcoh : Coherent m.fields)
    (hobj : ∀ e ∈ entries, ObjectUtils.isObject e.2 = true)
    (hmiss : ∃ k, k ∈ entries.map Prod.fst ∧ lookupA m.fields k = none) :
    m.loadStorageValues = .error .typeError := by
  have main : ∀ (l : List (String × Val)) (mm : Model), Coherent mm.fields →
      (∀ e ∈ l, ObjectUtils.isObject e.2 = true) →
      (∃ k, k ∈ l.map Prod.fst ∧ lookupA mm.fields k = none) →
      mm.loadStorageLoop l = .error .typeError := by
    intro l
    induction l with
    | nil =>
        intro mm _ _ hmiss
        obtain ⟨k, hk, _⟩ := hmiss
        simp at hk
    | cons e rest ih =>
        intro mm hcoh hobj hmiss
        obtain ⟨n, v⟩ := e
        have hv : ObjectUtils.isObject v = true := hobj (n, v) (by simp)
        cases v with
        | undef => simp [ObjectUtils.isObject] at hv
        | null => simp [ObjectUtils.isObject] at hv
        | bool b => simp [ObjectUtils.isObject] at hv
        | num i => simp [ObjectUtils.isObject] at hv
        | str t => simp [ObjectUtils.isObject] at hv
        | obj ves =>
            unfold Model.loadStorageLoop
            rw [if_pos hv]
            cases hlf : lookupA mm.fields n with
            | none => rfl
            | some field =>
                obtain ⟨k, hk, hknone⟩ := hmiss
                have hkn : k ≠ n := by
                  intro he
                  rw [he, hlf] at hknone
                  exact Option.noConfusion hknone
                have hkrest : k ∈ rest.map Prod.fst := by
                  simp at hk
                  rcases hk with h | h
                  · exact absurd h hkn
                  · simpa using h
                have hname : field.name = n := hcoh n field hlf
                show (if ((jsTypeof (ObjectUtils.getKey ves "value")
                      == jsTypeof field.value)
                    && !(strictEq (ObjectUtils.getKey ves "value") field.value))
                    = true then
                    (mm.updateField field
                      ⟨some (ObjectUtils.getKey ves "value"), none⟩).1.loadStorageLoop rest
                  else mm.loadStorageLoop rest) = .error .typeError
                split
                · have hnk : field.name ≠ k := by
                    rw [hname]
                    exact fun he => hkn he.symm
                  refine ih _ (coherent_updateField mm field _ hcoh)
                    (fun e he => hobj e (by simp [he])) ⟨k, hkrest, ?_⟩
                  rw [lookupA_updateField_ne mm field _ k hnk]
                  exact hknone
                · exact ih _ hcoh (fun e he => hobj e (by simp [he]))
                    ⟨k, hkrest, hknone⟩
  unfold Model.loadStorageValues
  rw [hstor]
  exact main entries m hcoh hobj hmiss

theorem C10_loadStorage_witness :
    Model.loadStorageValues
      { mFoo with stor := Val.obj [("zzz", Val.obj [("value", Val.num 1)])] }
      = .error .typeError := by
  refine C10_loadStorage [("zzz", Val.obj [("value", Val.num 1)])] _ rfl
    (coherent_of_coherentB _ rfl) ?_ ⟨"zzz", by simp, rfl⟩
  intro e he
  simp at he
  rw [he]
  rfl

/-- C10 counterexample: the snapshot `{a: 5, b: {value: 1}}` contains the
key "b", whose value is an object and which is not a registered field name
of `mFoo`, yet the import does not throw: the earlier entry `a: 5` has a
non-object value, which makes `_loadStorageValues` return before the
unknown key is ever examined. -/
theorem C10_counterexample :
    Model.loadStorageValues
      { mFoo with
        stor := Val.obj [("a", Val.num 5), ("b", Val.obj [("value", Val.num 1)])] }
      = .ok { mFoo with
          stor := Val.obj [("a", Val.num 5), ("b", Val.obj [("value", Val.num 1)])] } ∧
    lookupA mFoo.fields "b" = none := ⟨rfl, rfl⟩

end ClaimC10

section ClaimC2

/-- C2: for a registered field, whenever the candidate value (the custom
parser's result when one is configured, else the input verbatim) is
strictly equal to the field's current value, `setFieldValue` is a complete
no-op: the model is returned unchanged (registry entry, memoized values and
errors snapshots, persisted snapshot) and no event fires — no subscriber
notification, no validator call, no storage save, no onChange. -/
theorem C2_setFieldValue_noop (m : Model) (name : String) (input : Val)
    (sv : Bool) (field : ModelField)
    (hname : name ≠ "")
    (hfield : lookupA m.fields name = some field)
    (heq : strictEq field.value
      (candidateValue ((lookupA m.utils name).getD ⟨none, none⟩)
        field.value name input) = true) :
    m.setFieldValue name input sv = .ok (m, []) := by
  unfold Model.setFieldValue
  rw [if_neg hname]
  simp only [hfield]
  rw [if_pos heq]

theorem C2_setFieldValue_noop_witness :
    Model.setFieldValue mFoo "foo" (.num 0) true = .ok (mFoo, []) :=
  C2_setFieldValue_noop mFoo "foo" (.num 0) true
    ⟨"foo", .num 0, .num 0, none, false, false⟩ (by decide) rfl rfl

end ClaimC2

section ClaimC7

/-- C7 (amended): on the model whose field `foo` has the constant validator
`() => "error"`, `setFieldValue("foo", 1)` (validation enabled by default)
already stores `error` on the field; each of the two subsequent
`validateField("foo")` calls runs the validator, finds the error unchanged,
and skips notification — so the two calls notify subscribers zero times in
total, not once: the short-circuit hits on the first call as well as the
second. -/
theorem C7_validateField_notifications :
    Model.getField (sfvStep mC7 "foo" (.num 1)).1 "foo"
      = .ok ⟨"foo", .num 1, .num 0, some "error", true, true⟩ ∧
    (vfStep (sfvStep mC7 "foo" (.num 1)).1 "foo").2
      = [Evt.validatorCall "foo"] ∧
    (vfStep (vfStep (sfvStep mC7 "foo" (.num 1)).1 "foo").1 "foo").2
      = [Evt.validatorCall "foo"] ∧
    countEvt Evt.notify ((vfStep (sfvStep mC7 "foo" (.num 1)).1 "foo").2
      ++ (vfStep (vfStep (sfvStep mC7 "foo" (.num 1)).1 "foo").1 "foo").2)
      = 0 :=
  ⟨rfl, rfl, rfl, rfl⟩

/-- C7 counterexample: after `setFieldValue("foo", 1)` on the constant-
validator model, calling `validateField("foo")` twice notifies subscribers
zero times in total — not exactly once as the claim states (the error was
already set during setFieldValue's validation, so the first call
short-circuits too). -/
theorem C7_counterexample :
    countEvt Evt.notify ((vfStep (sfvStep mC7 "foo" (.num 1)).1 "foo").2
      ++ (vfStep (vfStep (sfvStep mC7 "foo" (.num 1)).1 "foo").1 "foo").2)
      ≠ 1 := by
  decide

end ClaimC7

section SubmitLemmas

theorem getValues_fst_eq (m : Model) :
    (m.getValues).1 = { m with mem.values := some (m.getValues).2 } := by
  unfold Model.getValues
  cases h : m.mem.values with
  | some v =>
      obtain ⟨f, u, ⟨e, sb, vv⟩, st, su, sc, op, sr⟩ := m
      simp at h
      subst h
      rfl
  | none => rfl

theorem getValues_submitted (m : Model) :
    (m.getValues).1.mem.submitted = m.mem.submitted := by
  rw [getValues_fst_eq]

theorem getValues_submitting (m : Model) :
    (m.getValues).1.submitting = m.submitting := by
  rw [getValues_fst_eq]

theorem getValues_errors (m : Model) :
    (m.getValues).1.mem.errors = m.mem.errors := by
  rw [getValues_fst_eq]

theorem getValues_fields (m : Model) :
    (m.getValues).1.fields = m.fields := by
  rw [getValues_fst_eq]

theorem pfv_submitted (m : Model) (field : ModelField) :
    (m.performFieldValidation field).1.mem.submitted = m.mem.submitted := by
  unfold Model.performFieldValidation
  split
  · split
    · rfl
    · simp [Model.updateField]
  · dsimp only
    split
    · rw [getValues_fst_eq]
    · simp [Model.updateField]
      rw [getValues_fst_eq]

theorem pfv_submitting (m : Model) (field : ModelField) :
    (m.performFieldValidation field).1.submitting = m.submitting := by
  unfold Model.performFieldValidation
  split
  · split
    · rfl
    · simp [Model.updateField]
  · dsimp only
    split
    · rw [getValues_fst_eq]
    · simp [Model.updateField]
      rw [getValues_fst_eq]

theorem pfv_cb (m : Model) (field : ModelField) :
    countEvt Evt.submitCb (m.performFieldValidation field).2.1 = 0 := by
  unfold Model.performFieldValidation
  split
  · split
    · simp [countEvt]
    · simp [countEvt]
  · dsimp only
    split
    · simp [countEvt]
    · simp [countEvt]

theorem namesValues_setA (fields : List (String × ModelField)) (n : String)
    (f g : ModelField) (hlk : lookupA fields n = some g)
    (hn : f.name = g.name) (hv : f.value = g.value) :
    namesValues (setA fields n f) = namesValues fields := by
  induction fields with
  | nil => simp [lookupA] at hlk
  | cons e es ih =>
      obtain ⟨k', f'⟩ := e
      by_cases hk : k' = n
      · subst hk
        simp [lookupA] at hlk
        subst hlk
        simp [setA, namesValues, hn, hv]
      · simp [lookupA, hk] at hlk
        simp [setA, hk, namesValues] at ih ⊢
        exact ih hlk

theorem pfv_namesValues (m : Model) (field : ModelField)
    (hl : lookupA m.fields field.name = some field) :
    namesValues (m.performFieldValidation field).1.fields
      = namesValues m.fields := by
  unfold Model.performFieldValidation
  split
  · split
    · rfl
    · simp only [Model.updateField]
      exact namesValues_setA m.fields field.name _ field hl rfl rfl
  · dsimp only
    split
    · rw [getValues_fst_eq]
    · simp only [Model.updateField]
      have h2 : lookupA (m.getValues).1.fields field.name = some field := by
        rw [getValues_fields]
        exact hl
      refine Eq.trans
        (namesValues_setA (m.getValues).1.fields field.name _ field h2 rfl rfl) ?_
      rw [getValues_fields]

theorem pfv_lookup_ne (m : Model) (field : ModelField) (n : String)
    (hne : field.name ≠ n) :
    lookupA (m.performFieldValidation field).1.fields n
      = lookupA m.fields n := by
  unfold Model.performFieldValidation
  split
  · split
    · rfl
    · simp only [Model.updateField]
      exact lookupA_setA_ne _ _ _ _ hne
  · dsimp only
    split
    · rw [getValues_fields]
    · simp only [Model.updateField]
      rw [lookupA_setA_ne _ _ _ _ hne, getValues_fields]

theorem getErrorsFold_proj (l : List ModelField)
    (acc : Model × List Evt × Errors) :
    ((l.foldl Model.getErrorsStep acc).1.mem.submitted = acc.1.mem.submitted)
  ∧ ((l.foldl Model.getErrorsStep acc).1.submitting = acc.1.submitting)
  ∧ (countEvt Evt.submitCb (l.foldl Model.getErrorsStep acc).2.1
      = countEvt Evt.submitCb acc.2.1) := by
  induction l generalizing acc with
  | nil => exact ⟨rfl, rfl, rfl⟩
  | cons f rest ih =>
      rw [List.foldl_cons]
      refine ⟨?_, ?_, ?_⟩
      · rw [(ih (Model.getErrorsStep acc f)).1]
        exact pfv_submitted acc.1 f
      · rw [(ih (Model.getErrorsStep acc f)).2.1]
        exact pfv_submitting acc.1 f
      · rw [(ih (Model.getErrorsStep acc f)).2.2]
        show countEvt Evt.submitCb (acc.2.1 ++ (acc.1.performFieldValidation f).2.1)
          = countEvt Evt.submitCb acc.2.1
        simp [countEvt, List.count_append]
        have := pfv_cb acc.1 f
        simp [countEvt] at this
        simp [this]

theorem getErrorsFold_frame (l : List ModelField)
    (acc : Model × List Evt × Errors)
    (hl : ∀ f ∈ l, lookupA acc.1.fields f.name = some f)
    (hnd : (l.map (fun f => f.name)).Nodup) :
    namesValues (l.foldl Model.getErrorsStep acc).1.fields
      = namesValues acc.1.fields := by
  induction l generalizing acc with
  | nil => rfl
  | cons f rest ih =>
      have hlf : lookupA acc.1.fields f.name = some f := hl f (by simp)
      have step1 : namesValues (Model.getErrorsStep acc f).1.fields
          = namesValues acc.1.fields := pfv_namesValues acc.1 f hlf
      have hnotin : f.name ∉ rest.map (fun g => g.name) :=
        (List.nodup_cons.mp (by simpa using hnd)).1
      have hrest : ∀ f2 ∈ rest,
          lookupA (Model.getErrorsStep acc f).1.fields f2.name = some f2 := by
        intro f2 hf2
        have hne : f.name ≠ f2.name := by
          intro he
          exact hnotin (he ▸ List.mem_map_of_mem (fun g => g.name) hf2)
        show lookupA (acc.1.performFieldValidation f).1.fields f2.name = some f2
        rw [pfv_lookup_ne acc.1 f f2.name hne]
        exact hl f2 (by simp [hf2])
      have hnd2 : (rest.map (fun g => g.name)).Nodup :=
        (List.nodup_cons.mp (by simpa using hnd)).2
      rw [List.foldl_cons, ih (Model.getErrorsStep acc f) hrest hnd2, step1]

theorem getErrors_hit (m : Model) (errs : Errors)
    (h : m.mem.errors = some errs) : m.getErrors = (m, [], errs) := by
  unfold Model.getErrors
  rw [h]

theorem getErrors_cache (m : Model) :
    (m.getErrors).1.mem.errors = some (m.getErrors).2.2 := by
  unfold Model.getErrors
  cases h : m.mem.errors with
  | some errs => simpa using h
  | none => simp

theorem getErrors_submitted (m : Model) :
    (m.getErrors).1.mem.submitted = m.mem.submitted := by
  unfold Model.getErrors
  cases h : m.mem.errors with
  | some errs => rfl
  | none =>
      dsimp only
      rw [show ({ ((m.fields.map Prod.snd).foldl Model.getErrorsStep
          (m, [], [])).1.getValues.1 with
          mem.errors := some (objAssign
            ((m.fields.map Prod.snd).foldl Model.getErrorsStep (m, [], [])).2.2
            (m.opts.validate
              ((m.fields.map Prod.snd).foldl Model.getErrorsStep (m, [], [])).1.getValues.2
              ((m.fields.map Prod.snd).foldl Model.getErrorsStep (m, [], [])).2.2)) }
          : Model).mem.submitted
        = ((m.fields.map Prod.snd).foldl Model.getErrorsStep
            (m, [], [])).1.getValues.1.mem.submitted from rfl]
      rw [getValues_submitted]
      exact (getErrorsFold_proj (m.fields.map Prod.snd) (m, [], [])).1

theorem getErrors_submitting (m : Model) :
    (m.getErrors).1.submitting = m.submitting := by
  unfold Model.getErrors
  cases h : m.mem.errors with
  | some errs => rfl
  | none =>
      dsimp only
      rw [show ({ ((m.fields.map Prod.snd).foldl Model.getErrorsStep
          (m, [], [])).1.getValues.1 with
          mem.errors := some (objAssign
            ((m.fields.map Prod.snd).foldl Model.getErrorsStep (m, [], [])).2.2
            (m.opts.validate
              ((m.fields.map Prod.snd).foldl Model.getErrorsStep (m, [], [])).1.getValues.2
              ((m.fields.map Prod.snd).foldl Model.getErrorsStep (m, [], [])).2.2)) }
          : Model).submitting
        = ((m.fields.map Prod.snd).foldl Model.getErrorsStep
            (m, [], [])).1.getValues.1.submitting from rfl]
      rw [getValues_submitting]
      exact (getErrorsFold_proj (m.fields.map Prod.snd) (m, [], [])).2.1

theorem getErrors_cb (m : Model) :
    countEvt Evt.submitCb (m.getErrors).2.1 = 0 := by
  unfold Model.getErrors
  cases h : m.mem.errors with
  | some errs => simp [countEvt]
  | none =>
      dsimp only
      have := (getErrorsFold_proj (m.fields.map Prod.snd) (m, [], [])).2.2
      simpa [countEvt] using this

theorem lookupA_of_mem_nodup {α : Type} (l : List (String × α)) (k : String)
    (v : α) (hnd : (l.map Prod.fst).Nodup) (hm : (k, v) ∈ l) :
    lookupA l k = some v := by
  induction l with
  | nil => simp at hm
  | cons e es ih =>
      obtain ⟨k', v'⟩ := e
      simp at hm
      rcases hm with ⟨h1, h2⟩ | h
      · simp [lookupA, h1, h2]
      · have hk : k' ≠ k := by
          intro he
          subst he
          exact (List.nodup_cons.mp (by simpa using hnd)).1
            (List.mem_map_of_mem Prod.fst h)
        simp [lookupA, hk]
        exact ih (List.nodup_cons.mp (by simpa using hnd)).2 h

theorem names_eq_keys (fields : List (String × ModelField))
    (hpw : ∀ e ∈ fields, e.2.name = e.1) :
    fields.map (fun e => e.2.name) = fields.map Prod.fst :=
  List.map_congr_left hpw

theorem getErrors_namesValues (m : Model)
    (hpw : ∀ e ∈ m.fields, e.2.name = e.1)
    (hnd : (m.fields.map Prod.fst).Nodup) :
    namesValues (m.getErrors).1.fields = namesValues m.fields := by
  unfold Model.getErrors
  cases h : m.mem.errors with
  | some errs => rfl
  | none =>
      dsimp only
      have hl : ∀ f ∈ m.fields.map Prod.snd,
          lookupA (m, ([] : List Evt), ([] : Errors)).1.fields f.name = some f := by
        intro f hf
        simp at hf
        obtain ⟨k, hk⟩ := hf
        have hn : f.name = k := by
          have := hpw (k, f) hk
          simpa using this
        rw [hn]
        exact lookupA_of_mem_nodup m.fields k f hnd hk
      have hnd2 : ((m.fields.map Prod.snd).map (fun f => f.name)).Nodup := by
        rw [List.map_map]
        rw [show m.fields.map ((fun f => f.name) ∘ Prod.snd)
          = m.fields.map (fun e => e.2.name) from rfl]
        rw [names_eq_keys m.fields hpw]
        exact hnd
      have hfold := getErrorsFold_frame (m.fields.map Prod.snd) (m, [], []) hl hnd2
      rw [show ({ ((m.fields.map Prod.snd).foldl Model.getErrorsStep
          (m, [], [])).1.getValues.1 with
          mem.errors := some (objAssign
            ((m.fields.map Prod.snd).foldl Model.getErrorsStep (m, [], [])).2.2
            (m.opts.validate
              ((m.fields.map Prod.snd).foldl Model.getErrorsStep (m, [], [])).1.getValues.2
              ((m.fields.map Prod.snd).foldl Model.getErrorsStep (m, [], [])).2.2)) }
          : Model).fields
        = ((m.fields.map Prod.snd).foldl Model.getErrorsStep
            (m, [], [])).1.getValues.1.fields from rfl]
      rw [getValues_fields]
      exact hfold

theorem validateM_hit (m : Model) (errs : Errors)
    (h : m.mem.errors = some errs) : m.validateM = (m, [], errs) := by
  unfold Model.validateM
  rw [getErrors_hit m errs h, h]
  rfl

theorem validateM_submitted (m : Model) :
    (m.validateM).1.mem.submitted = m.mem.submitted := by
  unfold Model.validateM
  dsimp only
  split <;> exact getErrors_submitted m

theorem validateM_submitting (m : Model) :
    (m.validateM).1.submitting = m.submitting := by
  unfold Model.validateM
  dsimp only
  split <;> exact getErrors_submitting m

theorem validateM_cache (m : Model) :
    (m.validateM).1.mem.errors = some (m.validateM).2.2 := by
  unfold Model.validateM
  dsimp only
  split <;> exact getErrors_cache m

theorem validateM_cb (m : Model) :
    countEvt Evt.submitCb (m.validateM).2.1 = 0 := by
  unfold Model.validateM
  dsimp only
  split
  · have := getErrors_cb m
    simp [countEvt, List.count_append] at this ⊢
    simp [this]
  · exact getErrors_cb m

theorem validateM_namesValues (m : Model)
    (hpw : ∀ e ∈ m.fields, e.2.name = e.1)
    (hnd : (m.fields.map Prod.fst).Nodup) :
    namesValues (m.validateM).1.fields = namesValues m.fields := by
  unfold Model.validateM
  dsimp only
  split <;> exact getErrors_namesValues m hpw hnd

theorem hasError_of_cache (m : Model) (errs : Errors)
    (h : m.mem.errors = some errs) :
    m.hasError = (m, [], !errs.isEmpty) := by
  unfold Model.hasError
  rw [getErrors_hit m errs h]

theorem hasError_submitted (m : Model) :
    (m.hasError).1.mem.submitted = m.mem.submitted :=
  getErrors_submitted m

theorem hasError_submitting (m : Model) :
    (m.hasError).1.submitting = m.submitting :=
  getErrors_submitting m

theorem hasError_cb (m : Model) :
    countEvt Evt.submitCb (m.hasError).2.1 = 0 :=
  getErrors_cb m

theorem submitSync_locked (m : Model) (fn : SubFn)
    (h : m.mem.submitted = true) : m.submitSync fn = (m, [], .deduped) := by
  unfold Model.submitSync
  rw [if_pos h]

theorem submitSync_cb (m : Model) (fn : SubFn) (h : m.mem.submitted = false) :
    ((m.submitSync fn).2.2 = .errorHandled
      ∧ countEvt Evt.submitCb (m.submitSync fn).2.1 = 0)
  ∨ ((m.submitSync fn).2.2 ≠ .errorHandled
      ∧ countEvt Evt.submitCb (m.submitSync fn).2.1 = 1) := by
  unfold Model.submitSync
  rw [if_neg (by simp [h])]
  dsimp only
  have hA := validateM_cb ({ m with submitting := true, mem.submitted := true } : Model)
  have hB := hasError_cb (({ m with submitting := true, mem.submitted := true } : Model).validateM).1
  split
  · left
    refine ⟨rfl, ?_⟩
    simp only [countEvt, List.count_cons, List.count_append] at hA hB ⊢
    simp [hA, hB]
  · right
    cases fn
    all_goals refine ⟨by simp, ?_⟩
    all_goals simp only [countEvt, List.count_cons, List.count_append] at hA hB ⊢
    all_goals simp [hA, hB]

theorem submitSync_pending (m : Model) (h : m.mem.submitted = false)
    (hs : (m.submitSync .pending).2.2 = .suspended) :
    (m.submitSync .pending).1.mem.submitted = true := by
  unfold Model.submitSync at hs ⊢
  rw [if_neg (by simp [h])] at hs ⊢
  dsimp only at hs ⊢
  split
  · next hcond =>
      rw [if_pos hcond] at hs
      simp at hs
  · next hcond =>
      rw [getValues_submitted, hasError_submitted, validateM_submitted]

theorem submitResume_reject (m : Model) :
    Model.submitResume m (.error ())
      = ({ m with mem.submitted := false, submitting := false },
          [Evt.notify], .threw) := rfl

theorem submitResume_ok (m : Model) (v : Val) :
    Model.submitResume m (.ok v)
      = ({ m with stor := Val.obj [], submitting := false },
          [Evt.storageClear, Evt.onSubmit, Evt.notify], .completed v) := rfl

theorem submitSync_retry (m : Model) (fn : SubFn)
    (h : m.mem.submitted = false) (he : m.mem.errors = some []) :
    (m.submitSync fn).2.2 ≠ .errorHandled
  ∧ countEvt Evt.submitCb (m.submitSync fn).2.1 = 1 := by
  unfold Model.submitSync
  rw [if_neg (by simp [h])]
  dsimp only
  have he2 : ({ m with submitting := true, mem.submitted := true }
      : Model).mem.errors = some [] := he
  rw [validateM_hit _ [] he2]
  dsimp only
  rw [hasError_of_cache _ [] he2]
  dsimp only
  rw [if_neg (by simp)]
  cases fn <;> exact ⟨by simp, by simp [countEvt]⟩

theorem setFieldValue_unlocks (m : Model) (name : String) (input : Val)
    (sv : Bool) (m' : Model) (evts : List Evt)
    (hname : name ≠ "")
    (hok : m.setFieldValue name input sv = .ok (m', evts))
    (hevts : evts ≠ []) :
    m'.mem.submitted = false := by
  unfold Model.setFieldValue at hok
  rw [if_neg hname] at hok
  cases hlf : lookupA m.fields name with
  | none =>
      rw [hlf] at hok
      exact Except.noConfusion hok
  | some field =>
      rw [hlf] at hok
      dsimp only at hok
      split at hok
      · simp at hok
        exact absurd hok.2 hevts
      · simp only [Except.ok.injEq, Prod.mk.injEq] at hok
        obtain ⟨h1, h2⟩ := hok
        rw [← h1]
        dsimp only
        split
        · rw [pfv_submitted]
          rfl
        · rfl

theorem submitSync_throw (m : Model) (h : m.mem.submitted = false)
    (ht : (m.submitSync .syncThrow).2.2 = .threw) :
    (m.submitSync .syncThrow).1.mem.submitted = false
  ∧ (m.submitSync .syncThrow).1.submitting = false
  ∧ (m.submitSync .syncThrow).1.mem.errors = some []
  ∧ (∃ pre, (m.submitSync .syncThrow).2.1 = pre ++ [Evt.notify])
  ∧ ((∀ e ∈ m.fields, e.2.name = e.1) → (m.fields.map Prod.fst).Nodup →
      namesValues (m.submitSync .syncThrow).1.fields = namesValues m.fields) := by
  have hcond : ((({ m with submitting := true, mem.submitted := true }
      : Model).validateM).1.hasError).2.2 = false := by
    cases hb : ((({ m with submitting := true, mem.submitted := true }
        : Model).validateM).1.hasError).2.2
    · rfl
    · exfalso
      unfold Model.submitSync at ht
      rw [if_neg (by simp [h])] at ht
      dsimp only at ht
      rw [if_pos hb] at ht
      simp at ht
  have hempty : ((({ m with submitting := true, mem.submitted := true }
      : Model).validateM).1.getErrors).2.2 = [] := by
    have hc2 : (!(((({ m with submitting := true, mem.submitted := true }
        : Model).validateM).1.getErrors).2.2).isEmpty) = false := hcond
    simp at hc2
    exact hc2
  unfold Model.submitSync
  rw [if_neg (by simp [h])]
  dsimp only
  rw [if_neg (by simp [hcond])]
  refine ⟨rfl, rfl, ?_, ?_, ?_⟩
  · show ((({ m with submitting := true, mem.submitted := true }
        : Model).validateM).1.hasError).1.getValues.1.mem.errors = some []
    rw [getValues_errors]
    show ((({ m with submitting := true, mem.submitted := true }
        : Model).validateM).1.getErrors).1.mem.errors = some []
    rw [getErrors_cache, hempty]
  · exact ⟨Evt.notify :: ((({ m with submitting := true, mem.submitted := true }
        : Model).validateM).2.1
      ++ ((({ m with submitting := true, mem.submitted := true }
        : Model).validateM).1.hasError).2.1 ++ [Evt.submitCb]), by simp⟩
  · intro hpw hnd
    show namesValues ((({ m with submitting := true, mem.submitted := true }
        : Model).validateM).1.hasError).1.getValues.1.fields = namesValues m.fields
    rw [getValues_fields]
    show namesValues ((({ m with submitting := true, mem.submitted := true }
        : Model).validateM).1.getErrors).1.fields = namesValues m.fields
    rw [getErrors_hit (({ m with submitting := true, mem.submitted := true }
        : Model).validateM).1 _ (validateM_cache _)]
    exact validateM_namesValues _ hpw hnd

end SubmitLemmas

section ClaimC1

/-- C1: once the `_mem.submitted` lock is set, any further `submit` is a
silent no-op returning undefined — state unchanged and no events, so
neither the submit callback nor the error callback runs.  In particular,
for a model with no validation errors, a call whose submit callback returns
a pending promise invokes the callback exactly once in its synchronous
part, leaves the lock set, makes an immediately following `submit` a silent
no-op, and the promise's settlement adds no further callback invocation;
after settlement the lock is still set, and a `setFieldValue` that actually
changes a value clears the lock, so a further `submit` (that validation
does not reject) invokes the callback again. -/
theorem C1_submit_dedup (m : Model) (fn fn2 fn3 : SubFn) (v : Val)
    (name : String) (input : Val) :
    (m.mem.submitted = true → m.submitSync fn = (m, [], .deduped))
  ∧ (m.mem.submitted = false →
      (m.submitSync .pending).2.2 = .suspended →
      countEvt Evt.submitCb (m.submitSync .pending).2.1 = 1
      ∧ (m.submitSync .pending).1.mem.submitted = true
      ∧ Model.submitSync (m.submitSync .pending).1 fn2
          = ((m.submitSync .pending).1, [], .deduped)
      ∧ countEvt Evt.submitCb
          (Model.submitResume (m.submitSync .pending).1 (.ok v)).2.1 = 0
      ∧ (Model.submitResume (m.submitSync .pending).1 (.ok v)).1.mem.submitted
          = true
      ∧ (name ≠ "" →
          ∀ m3 evts3,
            Model.setFieldValue
              (Model.submitResume (m.submitSync .pending).1 (.ok v)).1
              name input true = .ok (m3, evts3) →
            evts3 ≠ [] →
            m3.mem.submitted = false
            ∧ ((m3.submitSync fn3).2.2 ≠ .errorHandled →
                countEvt Evt.submitCb (m3.submitSync fn3).2.1 = 1))) := by
  constructor
  · intro h
    exact submitSync_locked m fn h
  · intro h hs
    have h1 : countEvt Evt.submitCb (m.submitSync .pending).2.1 = 1 := by
      rcases submitSync_cb m .pending h with ⟨hres, _⟩ | ⟨_, hc⟩
      · rw [hs] at hres
        exact absurd hres (by simp)
      · exact hc
    have h2 := submitSync_pending m h hs
    refine ⟨h1, h2, submitSync_locked _ fn2 h2, ?_, ?_, ?_⟩
    · rw [submitResume_ok]
      simp [countEvt]
    · rw [submitResume_ok]
      exact h2
    · intro hname m3 evts3 hok hevts
      have hunlock := setFieldValue_unlocks _ name input true m3 evts3 hname
        hok hevts
      refine ⟨hunlock, ?_⟩
      intro hne
      rcases submitSync_cb m3 fn3 hunlock with ⟨hres, _⟩ | ⟨_, hc⟩
      · exact absurd hres hne
      · exact hc

theorem C1_submit_dedup_witness :
    countEvt Evt.submitCb (Model.submitSync mFoo .pending).2.1 = 1 ∧
    Model.submitSync (Model.submitSync mFoo .pending).1 SubFn.pending
      = ((Model.submitSync mFoo .pending).1, [], .deduped) ∧
    (sfvStep (Model.submitResume (Model.submitSync mFoo .pending).1
        (.ok (Val.num 7))).1 "foo" (Val.num 1)).1.mem.submitted = false := by
  have h := C1_submit_dedup mFoo SubFn.pending SubFn.pending SubFn.pending
    (Val.num 7) "foo" (Val.num 1)
  have h2 := h.2 rfl rfl
  refine ⟨h2.1, h2.2.2.1, ?_⟩
  have h3 := h2.2.2.2.2.2 (by decide)
    (sfvStep (Model.submitResume (Model.submitSync mFoo .pending).1
      (.ok (Val.num 7))).1 "foo" (Val.num 1)).1
    (sfvStep (Model.submitResume (Model.submitSync mFoo .pending).1
      (.ok (Val.num 7))).1 "foo" (Val.num 1)).2
    rfl (by decide)
  exact h3.1

end ClaimC1

section ClaimC3

/-- C3: for a model that is not submit-locked and has no validation errors
(so that the submit callback actually runs), a synchronously throwing
callback leaves the lock cleared (and a subsequent submit is not
de-duplicated and invokes the callback exactly once), rethrows to the
caller (result `threw`), clears `submitting` in the finally step whose
notification is the last event, and leaves every field's value — and hence
the computed values tree — unchanged; a callback that returns a later-
rejecting promise likewise resumes by unlocking, rethrowing, clearing
`submitting` with a single notification, and touching no field. -/
theorem C3_submit_failure (m : Model) (fn2 : SubFn)
    (hpw : ∀ e ∈ m.fields, e.2.name = e.1)
    (hnd : (m.fields.map Prod.fst).Nodup)
    (h : m.mem.submitted = false)
    (ht : (m.submitSync .syncThrow).2.2 = .threw) :
    ((m.submitSync .syncThrow).1.mem.submitted = false)
  ∧ ((m.submitSync .syncThrow).1.submitting = false)
  ∧ (∃ pre, (m.submitSync .syncThrow).2.1 = pre ++ [Evt.notify])
  ∧ (namesValues (m.submitSync .syncThrow).1.fields = namesValues m.fields)
  ∧ ((m.submitSync .syncThrow).1.valuesFresh = m.valuesFresh)
  ∧ (((m.submitSync .syncThrow).1.submitSync fn2).2.2 ≠ .errorHandled
      ∧ countEvt Evt.submitCb
          ((m.submitSync .syncThrow).1.submitSync fn2).2.1 = 1)
  ∧ ((Model.submitResume (m.submitSync .pending).1 (.error ())).1.mem.submitted
        = false
      ∧ (Model.submitResume (m.submitSync .pending).1 (.error ())).1.submitting
          = false
      ∧ (Model.submitResume (m.submitSync .pending).1 (.error ())).2.1
          = [Evt.notify]
      ∧ (Model.submitResume (m.submitSync .pending).1 (.error ())).2.2 = .threw
      ∧ (Model.submitResume (m.submitSync .pending).1 (.error ())).1.fields
          = (m.submitSync .pending).1.fields) := by
  obtain ⟨hsub, hsg, herr, hpre, hnv⟩ := submitSync_throw m h ht
  have hnv2 := hnv hpw hnd
  refine ⟨hsub, hsg, hpre, hnv2, ?_, ?_, ?_⟩
  · unfold Model.valuesFresh
    rw [hnv2]
  · rcases submitSync_retry (m.submitSync .syncThrow).1 fn2 hsub herr with ⟨ha, hb⟩
    exact ⟨ha, hb⟩
  · rw [submitResume_reject]
    exact ⟨rfl, rfl, rfl, rfl, rfl⟩

theorem C3_submit_failure_witness :
    (Model.submitSync mFoo .syncThrow).1.mem.submitted = false ∧
    (Model.submitSync mFoo .syncThrow).1.submitting = false ∧
    namesValues (Model.submitSync mFoo .syncThrow).1.fields
      = namesValues mFoo.fields ∧
    countEvt Evt.submitCb
      ((Model.submitSync mFoo .syncThrow).1.submitSync SubFn.syncThrow).2.1
      = 1 := by
  have h := C3_submit_failure mFoo SubFn.syncThrow (by decide) (by decide)
    rfl rfl
  exact ⟨h.1, h.2.1, h.2.2.2.1, h.2.2.2.2.2.1.2⟩

end ClaimC3

section ResetLemmas

theorem registerField_proj (m : Model) (n : String) (s : SVal) :
    ((m.registerField n s).state = m.state)
  ∧ ((m.registerField n s).submitting = m.submitting)
  ∧ ((m.registerField n s).stor = m.stor)
  ∧ ((m.registerField n s).schema = m.schema)
  ∧ ((m.registerField n s).opts = m.opts)
  ∧ ((m.registerField n s).mem.values = m.mem.values)
  ∧ ((m.registerField n s).mem.submitted = m.mem.submitted) := by
  unfold Model.registerField
  dsimp only
  split <;> exact ⟨rfl, rfl, rfl, rfl, rfl, rfl, rfl⟩

theorem registerField_lookup_self (m : Model) (n : String) (s : SVal) :
    lookupA (m.registerField n s).fields n = some (registeredFieldOf n s) := by
  unfold Model.registerField
  dsimp only
  split <;> exact lookupA_setA_self _ _ _

theorem registerField_lookup_ne (m : Model) (n : String) (s : SVal)
    (n2 : String) (hne : n ≠ n2) :
    lookupA (m.registerField n s).fields n2 = lookupA m.fields n2 := by
  unfold Model.registerField
  dsimp only
  split <;> exact lookupA_setA_ne _ _ _ _ hne

theorem regAll_proj (l : List (String × SVal)) (m : Model) :
    ((regAll m l).state = m.state)
  ∧ ((regAll m l).stor = m.stor)
  ∧ ((regAll m l).schema = m.schema) := by
  induction l generalizing m with
  | nil => exact ⟨rfl, rfl, rfl⟩
  | cons p rest ih =>
      show ((regAll (m.registerField p.1 p.2) rest).state = m.state) ∧ _ ∧ _
      obtain ⟨h1, h2, h3⟩ := ih (m.registerField p.1 p.2)
      obtain ⟨g1, g2, g3, g4, _⟩ := registerField_proj m p.1 p.2
      exact ⟨h1.trans g1, h2.trans g3, h3.trans g4⟩

mutual
theorem initWalk_eq_regAll (m : Model) (name : String) (s : SVal) :
    Model.initFieldsWalk m name s = regAll m (leafList s name) := by
  cases s with
  | node es =>
      by_cases hleaf : isSchemaFieldObject (.node es) = true
      · simp [Model.initFieldsWalk, leafList, hleaf, regAll]
      · rw [show Model.initFieldsWalk m name (.node es)
            = Model.initFieldsWalkList m name es by
              unfold Model.initFieldsWalk
              rw [if_neg hleaf]]
        rw [show leafList (.node es) name = leafList.leafListL es name by
              unfold leafList
              rw [if_neg hleaf]]
        exact initWalkList_eq_regAll m name es
  | prim v => rfl
  | pfn f => rfl
  | vfn f => rfl
theorem initWalkList_eq_regAll (m : Model) (pfx : String)
    (es : List (String × SVal)) :
    Model.initFieldsWalkList m pfx es = regAll m (leafList.leafListL es pfx) := by
  cases es with
  | nil => rfl
  | cons p rest =>
      obtain ⟨k, sub⟩ := p
      show Model.initFieldsWalkList (Model.initFieldsWalk m (joinName pfx k) sub)
          pfx rest = regAll m (leafList sub (joinName pfx k)
            ++ leafList.leafListL rest pfx)
      rw [show regAll m (leafList sub (joinName pfx k)
            ++ leafList.leafListL rest pfx)
          = regAll (regAll m (leafList sub (joinName pfx k)))
              (leafList.leafListL rest pfx) by
            unfold regAll
            exact List.foldl_append _ _ _ _]
      rw [← initWalk_eq_regAll m (joinName pfx k) sub]
      exact initWalkList_eq_regAll (Model.initFieldsWalk m (joinName pfx k) sub)
        pfx rest
end

theorem lookupA_append {α : Type} (a b : List (String × α)) (k : String) :
    lookupA (a ++ b) k
      = match lookupA a k with
        | some v => some v
        | none => lookupA b k := by
  induction a with
  | nil => simp [lookupA]
  | cons e es ih =>
      obtain ⟨k', v'⟩ := e
      by_cases h : k' = k
      · simp [lookupA, h]
      · simp [lookupA, h, ih]

theorem lookupA_mem {α : Type} (l : List (String × α)) (k : String) (v : α)
    (h : lookupA l k = some v) : (k, v) ∈ l := by
  induction l with
  | nil => simp [lookupA] at h
  | cons e es ih =>
      obtain ⟨k', v'⟩ := e
      by_cases hk : k' = k
      · simp [lookupA, hk] at h
        simp [hk, h]
      · simp [lookupA, hk] at h
        simp [ih h]

theorem lookupA_isSome_iff {α : Type} (l : List (String × α)) (k : String) :
    (lookupA l k).isSome = true ↔ k ∈ l.map Prod.fst := by
  induction l with
  | nil => simp [lookupA]
  | cons e es ih =>
      obtain ⟨k', v'⟩ := e
      by_cases hk : k' = k
      · simp [lookupA, hk]
      · simp [lookupA, hk, ih, Ne.symm hk]

theorem lastLookup_mem {α : Type} (l : List (String × α)) (k : String) (v : α)
    (h : lastLookup l k = some v) : (k, v) ∈ l := by
  have := lookupA_mem l.reverse k v h
  simpa using this

theorem lastLookup_isSome {α : Type} (l : List (String × α)) (k : String)
    (h : k ∈ l.map Prod.fst) : (lastLookup l k).isSome = true := by
  unfold lastLookup
  rw [lookupA_isSome_iff]
  simpa using h

theorem regAll_lookup (l : List (String × SVal)) (m : Model) (n : String) :
    lookupA (regAll m l).fields n
      = match lastLookup l n with
        | some leaf => some (registeredFieldOf n leaf)
        | none => lookupA m.fields n := by
  induction l generalizing m with
  | nil => rfl
  | cons p rest ih =>
      obtain ⟨n0, s0⟩ := p
      show lookupA (regAll (m.registerField n0 s0) rest).fields n = _
      rw [ih (m.registerField n0 s0)]
      cases hlr : lastLookup rest n with
      | some leaf =>
          have hc : lastLookup ((n0, s0) :: rest) n = some leaf := by
            unfold lastLookup at hlr ⊢
            rw [List.reverse_cons, lookupA_append, hlr]
          rw [hc]
      | none =>
          have hc : lastLookup ((n0, s0) :: rest) n = lookupA [(n0, s0)] n := by
            unfold lastLookup at hlr ⊢
            rw [List.reverse_cons, lookupA_append, hlr]
          rw [hc]
          by_cases hn0 : n0 = n
          · subst hn0
            simp [lookupA, registerField_lookup_self]
          · simp [lookupA, hn0, registerField_lookup_ne m n0 s0 n hn0]

theorem loadStorageValues_empty (m : Model) (h : m.stor = Val.obj []) :
    m.loadStorageValues = .ok m := by
  unfold Model.loadStorageValues
  rw [h]
  rfl

end ResetLemmas

section ClaimC8

theorem setupInitialState_clear (m : Model) (h : m.stor = Val.obj []) :
    m.setupInitialState
      = .ok (Model.initFieldsWalk m.clearState "" m.schema) := by
  unfold Model.setupInitialState
  apply loadStorageValues_empty
  rw [initWalk_eq_regAll, (regAll_proj _ _).2.1]
  exact h

/-- C8: on a model whose registered names all come from schema leaves (true
of every constructed model) and whose schema keys are dot-free, the
no-argument `reset()` clears the persisted snapshot first, re-registers
every schema leaf, resets the auxiliary state bag to the configured initial
state, clears the transient memory, fires `onReset`, and notifies exactly
once (events: storage-clear, onReset, one notification); afterwards every
registered field is exactly the fresh registration of a schema leaf — its
value is the leaf's declared initial value (equal to its `initialValue`)
and `dirty` and `touched` are false — and every schema leaf is
registered. -/
theorem C8_reset_roundtrip (m : Model)
    (hdots : schemaNoDots m.schema = true)
    (hfl : ∀ k ∈ m.fields.map Prod.fst, k ∈ (leafList m.schema "").map Prod.fst) :
    m.reset "" = .ok ((resetStep m "").1,
        [Evt.storageClear, Evt.onReset, Evt.notify])
  ∧ (resetStep m "").1.state = m.opts.initialState
  ∧ (resetStep m "").1.mem = Mem.empty
  ∧ (resetStep m "").1.stor = Val.obj []
  ∧ (∀ n f', lookupA (resetStep m "").1.fields n = some f' →
      ∃ leaf, (n, leaf) ∈ leafList m.schema ""
        ∧ f' = registeredFieldOf n leaf
        ∧ f'.dirty = false ∧ f'.touched = false
        ∧ f'.value = f'.initialValue)
  ∧ (∀ p ∈ leafList m.schema "",
      (lookupA (resetStep m "").1.fields p.1).isSome = true) := by
  have hreset : m.reset ""
      = .ok ({ Model.initFieldsWalk ({ m with stor := Val.obj [] }
            : Model).clearState "" m.schema with mem := Mem.empty },
          [Evt.storageClear, Evt.onReset, Evt.notify]) := by
    unfold Model.reset
    rw [if_pos rfl]
    rw [setupInitialState_clear ({ m with stor := Val.obj [] } : Model) rfl]
  have hstep : (resetStep m "").1
      = { Model.initFieldsWalk ({ m with stor := Val.obj [] }
            : Model).clearState "" m.schema with mem := Mem.empty } := by
    unfold resetStep
    rw [hreset]
  have hfields : (resetStep m "").1.fields
      = (regAll ({ m with stor := Val.obj [] } : Model).clearState
          (leafList m.schema "")).fields := by
    rw [hstep]
    show (Model.initFieldsWalk ({ m with stor := Val.obj [] }
        : Model).clearState "" m.schema).fields = _
    rw [initWalk_eq_regAll]
  refine ⟨?_, ?_, ?_, ?_, ?_, ?_⟩
  · rw [hreset, hstep]
  · rw [hstep]
    show (Model.initFieldsWalk ({ m with stor := Val.obj [] }
        : Model).clearState "" m.schema).state = m.opts.initialState
    rw [initWalk_eq_regAll, (regAll_proj _ _).1]
    rfl
  · rw [hstep]
  · rw [hstep]
    show (Model.initFieldsWalk ({ m with stor := Val.obj [] }
        : Model).clearState "" m.schema).stor = Val.obj []
    rw [initWalk_eq_regAll, (regAll_proj _ _).2.1]
    rfl
  · intro n f' hf'
    rw [hfields, regAll_lookup] at hf'
    cases hll : lastLookup (leafList m.schema "") n with
    | some leaf =>
        rw [hll] at hf'
        simp only [Option.some.injEq] at hf'
        subst hf'
        exact ⟨leaf, lastLookup_mem _ _ _ hll, rfl, rfl, rfl, rfl⟩
    | none =>
        rw [hll] at hf'
        have hf2 : lookupA ({ m with stor := Val.obj [] }
            : Model).clearState.fields n = some f' := hf'
        have hn : n ∈ m.fields.map Prod.fst := by
          rw [← lookupA_isSome_iff]
          show (lookupA ({ m with stor := Val.obj [] }
            : Model).clearState.fields n).isSome = true
          rw [hf2]
          rfl
        have h2 := lastLookup_isSome (leafList m.schema "") n (hfl n hn)
        rw [hll] at h2
        simp at h2
  · intro p hp
    rw [hfields, regAll_lookup]
    have h2 := lastLookup_isSome (leafList m.schema "") p.1
      (List.mem_map_of_mem Prod.fst hp)
    cases hll : lastLookup (leafList m.schema "") p.1 with
    | some leaf => rfl
    | none =>
        rw [hll] at h2
        simp at h2

theorem C8_reset_roundtrip_witness :
    Model.reset mNestedChanged "" = .ok ((resetStep mNestedChanged "").1,
        [Evt.storageClear, Evt.onReset, Evt.notify])
  ∧ (resetStep mNestedChanged "").1.state = mNestedChanged.opts.initialState
  ∧ (∃ leaf, ("nested.bar", leaf) ∈ leafList mNestedChanged.schema ""
      ∧ (⟨"nested.bar", Val.str "a", Val.str "a", none, false, false⟩
          : ModelField) = registeredFieldOf "nested.bar" leaf
      ∧ (⟨"nested.bar", Val.str "a", Val.str "a", none, false, false⟩
          : ModelField).dirty = false
      ∧ (⟨"nested.bar", Val.str "a", Val.str "a", none, false, false⟩
          : ModelField).touched = false
      ∧ (⟨"nested.bar", Val.str "a", Val.str "a", none, false, false⟩
          : ModelField).value
        = (⟨"nested.bar", Val.str "a", Val.str "a", none, false, false⟩
          : ModelField).initialValue) := by
  have h := C8_reset_roundtrip mNestedChanged (by decide) (by decide)
  exact ⟨h.1, h.2.1, h.2.2.2.2.1 "nested.bar"
    ⟨"nested.bar", Val.str "a", Val.str "a", none, false, false⟩ rfl⟩

end ClaimC8

section ClaimC9

theorem resetLoop_lookup_ne (l : List ModelField) (m : Model) (n : String)
    (hn : n ∉ l.map (fun f => f.name)) :
    lookupA (m.resetMatchedLoop l).fields n = lookupA m.fields n := by
  induction l generalizing m with
  | nil => rfl
  | cons f rest ih =>
      have hn1 : f.name ≠ n := fun he => hn (by simp [← he])
      have hn2 : n ∉ rest.map (fun f2 => f2.name) := fun hc => hn (by simp [hc])
      unfold Model.resetMatchedLoop
      dsimp only
      split
      · rw [ih (m.registerField f.name (sretrieve m.schema f.name)) hn2]
        exact registerField_lookup_ne m f.name _ n hn1
      · exact ih m hn2

theorem resetLoop_lookup_matched (l : List ModelField) (m : Model)
    (g : ModelField) (hg : g ∈ l)
    (hnd : (l.map (fun f => f.name)).Nodup) :
    lookupA (m.resetMatchedLoop l).fields g.name
      = if sTruthy (sretrieve m.schema g.name) = true
        then some (registeredFieldOf g.name (sretrieve m.schema g.name))
        else lookupA m.fields g.name := by
  induction l generalizing m with
  | nil => simp at hg
  | cons f rest ih =>
      have hnotin : f.name ∉ rest.map (fun f2 => f2.name) :=
        (List.nodup_cons.mp (by simpa using hnd)).1
      have hnd2 : (rest.map (fun f2 => f2.name)).Nodup :=
        (List.nodup_cons.mp (by simpa using hnd)).2
      rcases List.mem_cons.mp hg with he | hgr
      · subst he
        unfold Model.resetMatchedLoop
        dsimp only
        split
        · next hst =>
            rw [resetLoop_lookup_ne rest _ g.name hnotin]
            rw [registerField_lookup_self]
        · next hst =>
            rw [resetLoop_lookup_ne rest m g.name hnotin]
      · have hgname : g.name ∈ rest.map (fun f2 => f2.name) :=
          List.mem_map_of_mem (fun f2 => f2.name) hgr
        have hne : f.name ≠ g.name := fun he => hnotin (he ▸ hgname)
        unfold Model.resetMatchedLoop
        dsimp only
        split
        · rw [ih (m.registerField f.name (sretrieve m.schema f.name)) hgr hnd2]
          rw [(registerField_proj m f.name (sretrieve m.schema f.name)).2.2.2.1]
          rw [registerField_lookup_ne m f.name _ g.name hne]
        · exact ih m hgr hnd2

theorem matched_names_nodup (m : Model) (name : String)
    (hpw : ∀ e ∈ m.fields, e.2.name = e.1)
    (hnd : (m.fields.map Prod.fst).Nodup) :
    ((forMatches m.fields name).map (fun f => f.name)).Nodup := by
  unfold forMatches
  cases h : lookupA m.fields name with
  | some f => simp
  | none =>
      have hsub : (((m.fields.map Prod.snd).filter
            (fun f => strStartsWith f.name (name ++ "."))).map
              (fun f => f.name)).Sublist
          ((m.fields.map Prod.snd).map (fun f => f.name)) :=
        (List.filter_sublist _).map _
      refine List.Nodup.sublist hsub ?_
      rw [List.map_map]
      rw [show (m.fields.map ((fun f => f.name) ∘ Prod.snd))
        = m.fields.map (fun e => e.2.name) from rfl]
      rw [names_eq_keys m.fields hpw]
      exact hnd

/-- C9 (amended): on a coherent registry, a non-empty `reset(path)` resolves
the matched set to the single exact-name field, or — with no exact match —
to exactly the fields whose names start with `path + "."`; every matched
field whose name has a truthy schema subtree is re-registered from that
subtree, a matched field with no schema entry is individually skipped, and
every non-matching field keeps its record untouched; subscribers are
notified (and the transient memory cleared) if and only if at least one
field matched.  With zero matches, however, the call is not fully silent:
the registry is still persisted via `storage.save` (the single storageSave
event), though no field, cache, or notification state changes. -/
theorem C9_reset_named (m : Model) (name : String)
    (hpw : ∀ e ∈ m.fields, e.2.name = e.1)
    (hnd : (m.fields.map Prod.fst).Nodup)
    (hname : name ≠ "") :
    (∀ f, lookupA m.fields name = some f → forMatches m.fields name = [f])
  ∧ (lookupA m.fields name = none → forMatches m.fields name
      = (m.fields.map Prod.snd).filter
          (fun f2 => strStartsWith f2.name (name ++ ".")))
  ∧ (∀ n, n ∉ (forMatches m.fields name).map (fun f2 => f2.name) →
      lookupA (resetStep m name).1.fields n = lookupA m.fields n)
  ∧ (∀ g, g ∈ forMatches m.fields name →
      sTruthy (sretrieve m.schema g.name) = true →
      lookupA (resetStep m name).1.fields g.name
        = some (registeredFieldOf g.name (sretrieve m.schema g.name)))
  ∧ (∀ g, g ∈ forMatches m.fields name →
      sTruthy (sretrieve m.schema g.name) = false →
      lookupA (resetStep m name).1.fields g.name = lookupA m.fields g.name)
  ∧ ((resetStep m name).2 = if (forMatches m.fields name).isEmpty
      then [Evt.storageSave] else [Evt.storageSave, Evt.notify])
  ∧ ((forMatches m.fields name).isEmpty = true →
      (resetStep m name).1.fields = m.fields
      ∧ (resetStep m name).1.mem = m.mem)
  ∧ ((forMatches m.fields name).isEmpty = false →
      (resetStep m name).1.mem = Mem.empty) := by
  have hfields : (resetStep m name).1.fields
      = (m.resetMatchedLoop (forMatches m.fields name)).fields := by
    unfold resetStep Model.reset
    rw [if_neg hname]
    dsimp only
    cases hM : (forMatches m.fields name).isEmpty
    · rw [if_neg (by simp)]
    · rw [if_pos rfl]
  refine ⟨?_, ?_, ?_, ?_, ?_, ?_, ?_, ?_⟩
  · intro f hf
    unfold forMatches
    rw [hf]
  · intro h0
    unfold forMatches
    rw [h0]
  · intro n hn
    rw [hfields]
    exact resetLoop_lookup_ne _ m n hn
  · intro g hg hst
    rw [hfields]
    rw [resetLoop_lookup_matched _ m g hg (matched_names_nodup m name hpw hnd)]
    rw [if_pos hst]
  · intro g hg hst
    rw [hfields]
    rw [resetLoop_lookup_matched _ m g hg (matched_names_nodup m name hpw hnd)]
    rw [if_neg (by simp [hst])]
  · unfold resetStep Model.reset
    rw [if_neg hname]
    dsimp only
    cases hM : (forMatches m.fields name).isEmpty
    · rw [if_neg (by simp), if_neg (by simp)]
    · rw [if_pos rfl, if_pos rfl]
  · intro hM
    have hmt : forMatches m.fields name = [] := by
      cases hq : forMatches m.fields name with
      | nil => rfl
      | cons a b => rw [hq] at hM; simp at hM
    constructor
    · rw [hfields, hmt]
      rfl
    · unfold resetStep Model.reset
      rw [if_neg hname]
      dsimp only
      rw [if_pos hM]
      show (m.resetMatchedLoop (forMatches m.fields name)).mem = m.mem
      rw [hmt]
      rfl
  · intro hM
    unfold resetStep Model.reset
    rw [if_neg hname]
    dsimp only
    rw [if_neg (by simp [hM])]

theorem C9_reset_named_witness :
    lookupA (resetStep mNestedChanged "nested").1.fields "foo"
      = lookupA mNestedChanged.fields "foo"
  ∧ lookupA (resetStep mNestedChanged "nested").1.fields "nested.bar"
      = some (registeredFieldOf "nested.bar"
          (sretrieve mNestedChanged.schema "nested.bar"))
  ∧ (resetStep mNestedChanged "nested").2 = [Evt.storageSave, Evt.notify] := by
  have h := C9_reset_named mNestedChanged "nested" (by decide) (by decide)
    (by decide)
  refine ⟨h.2.2.1 "foo" (by decide), ?_, ?_⟩
  · refine h.2.2.2.1 ⟨"nested.bar", .str "y", .str "a", none, true, true⟩ ?_ rfl
    rw [show forMatches mNestedChanged.fields "nested"
      = [⟨"nested.bar", Val.str "y", Val.str "a", none, true, true⟩,
         ⟨"nested.baz", Val.num 5, Val.num 0, none, true, true⟩] from rfl]
    exact List.mem_cons_self _ _
  · exact (h.2.2.2.2.2.1).trans rfl

/-- C9 counterexample: `reset("zzz")` on a model with no field named "zzz"
and no "zzz."-prefixed field matches nothing, yet it is not observationally
silent: `storage.save(this._fields)` still runs (the storageSave event),
replacing the adapter's snapshot — here changing it from the empty object
to the serialized registry. -/
theorem C9_counterexample :
    Model.reset mFoo "zzz"
      = .ok ({ mFoo with stor := serializeFields mFoo.fields },
          [Evt.storageSave])
  ∧ serializeFields mFoo.fields ≠ mFoo.stor := by
  refine ⟨rfl, ?_⟩
  intro h
  have h2 : Val.obj [("foo", serializeField
      ⟨"foo", Val.num 0, Val.num 0, none, false, false⟩)] = Val.obj [] := h
  have h3 := Val.obj.inj h2
  exact List.noConfusion h3

end ClaimC9
